import Mathlib

/-!
Verification of the number-theory primitives in `number_theory/prime.h`
(tqlib): the Eratosthenes `Sieve`, the linear `EulerSieve` with
smallest-prime-factor queries, the `coprime_pairs` generator, and the
bounded trial-division `is_prime`.

The C++ loops are embedded as fuel-based structural recursions (the fuel
is always provably sufficient, so the embedded functions compute exactly
what the source loops compute).  `std::vector` accesses that the source
performs through `operator[]` are modelled with explicit bounds checks
(`BoolVec.write` / `BoolVec.read` return `none` on an out-of-bounds
access, which in C++ would be undefined behaviour).  The `uint64_t`
arithmetic inside `coprime_pairs` is modelled exactly, with reduction
modulo `2^64`, because overflow is reachable there; the arithmetic in the
two sieves is exact on the whole domain covered by the theorems below
(for `EulerSieve` the overflow guard enforces this, for `Sieve` the
theorems carry the corresponding side condition).
-/

/-- The three error conditions of the library: `std::out_of_range`,
`std::domain_error` and `std::overflow_error`. -/
inductive Err where
  | outOfRange : Err
  | domain : Err
  | overflow : Err
deriving DecidableEq

/-- A `std::vector<bool>`: a size together with the contents.  Reads and
writes are bounds-checked; an out-of-bounds access yields `none`. -/
structure BoolVec where
  size : ℕ
  data : ℕ → Bool

/-- Bounds-checked write, `vec[i] = v`. -/
def BoolVec.write (a : BoolVec) (i : ℕ) (v : Bool) : Option BoolVec :=
  if i < a.size then some ⟨a.size, fun n => if n = i then v else a.data n⟩ else none

/-- Bounds-checked read, `vec[i]`. -/
def BoolVec.read (a : BoolVec) (i : ℕ) : Option Bool :=
  if i < a.size then some (a.data i) else none

/-- The state of a constructed `Sieve<T>`: `num_limit_` and `is_prime_`. -/
structure SieveT where
  num_limit : ℕ
  flags : BoolVec

/-- Inner loop of the `Sieve` constructor:
`for (uint64_t j = i * i; j <= num_limit_u64; j += i) is_prime_[j] = false;`.
The first argument is fuel (the loop runs at most `L + 1` times). -/
def eraInner (L i : ℕ) : ℕ → ℕ → BoolVec → Option BoolVec
  | 0, _, _ => none
  | fuel + 1, j, a =>
    if j ≤ L then
      match a.write j false with
      | none => none
      | some a2 => eraInner L i fuel (j + i) a2
    else some a

/-- Outer loop of the `Sieve` constructor:
`for (uint64_t i = 2; i * i <= num_limit_u64; ++i) ...`. -/
def eraOuter (L : ℕ) : ℕ → ℕ → BoolVec → Option BoolVec
  | 0, _, _ => none
  | fuel + 1, i, a =>
    if i * i ≤ L then
      match a.read i with
      | none => none
      | some b =>
        match (if b then eraInner L i (L + 1) (i * i) a else some a) with
        | none => none
        | some a2 => eraOuter L fuel (i + 1) a2
    else some a

/-- The `Sieve<T>` constructor for a non-negative limit `L`:
allocate `L + 1` flags set to `true`, clear the flags at indices 0 and 1,
then run the elimination loops.  `none` means the construction performed
an out-of-bounds vector access (undefined behaviour in the source). -/
def SieveT.mk? (L : ℕ) : Option SieveT :=
  let a0 : BoolVec := ⟨L + 1, fun _ => true⟩
  match a0.write 0 false with
  | none => none
  | some a1 =>
    match a1.write 1 false with
    | none => none
    | some a2 =>
      match eraOuter L (L + 1) 2 a2 with
      | none => none
      | some a3 => some ⟨L, a3⟩

/-- `Sieve<T>::is_prime`: `false` for negative numbers, `std::out_of_range`
above the limit, otherwise the precomputed flag. -/
def SieveT.is_prime (s : SieveT) (n : ℤ) : Except Err Bool :=
  if n < 0 then .ok false
  else if (s.num_limit : ℤ) < n then .error .outOfRange
  else .ok (s.flags.data n.toNat)

/-- Pointwise update of a `ℕ`-indexed array. -/
def upd (f : ℕ → ℕ) (k v : ℕ) : ℕ → ℕ := fun n => if n = k then v else f n

/-- `std::bit_width` on the unsigned value `n`, by repeated halving
(the fuel `n + 1` always suffices). -/
def bitWidthGo : ℕ → ℕ → ℕ
  | 0, _ => 0
  | fuel + 1, n => if n = 0 then 0 else bitWidthGo fuel (n / 2) + 1

/-- `std::bit_width(n)`: the number of bits needed to represent `n`. -/
def bit_width (n : ℕ) : ℕ := bitWidthGo (n + 1) n

/-- The state of a constructed `EulerSieve<T>`: `num_limit_`,
`min_prime_factor_` and `primes_`. -/
structure EulerSieveT where
  num_limit : ℕ
  mpf : ℕ → ℕ
  primes : List ℕ

/-- Inner loop of the `EulerSieve` constructor: iterate over the primes
found so far; stop at the first prime exceeding `min_prime_factor_[num]`
or whose product with `num` exceeds the limit; otherwise record the
product's minimum prime factor. -/
def eulerInner (L num : ℕ) : List ℕ → (ℕ → ℕ) → (ℕ → ℕ)
  | [], mpf => mpf
  | p :: rest, mpf =>
    if mpf num < p then mpf
    else if L < p * num then mpf
    else eulerInner L num rest (upd mpf (p * num) p)

/-- Outer loop of the `EulerSieve` constructor:
`for (T num = 2; num <= num_limit_; ++num) ...`.  The first `ℕ` argument
is fuel (`L + 1` suffices). -/
def eulerOuterGo (L : ℕ) : ℕ → ℕ → (ℕ → ℕ) × List ℕ → (ℕ → ℕ) × List ℕ
  | 0, _, s => s
  | fuel + 1, num, s =>
    if num ≤ L then
      let s1 : (ℕ → ℕ) × List ℕ :=
        if s.1 num = 0 then (upd s.1 num num, s.2 ++ [num]) else s
      eulerOuterGo L fuel (num + 1) (eulerInner L num s1.2 s1.1, s1.2)
    else s

/-- The `EulerSieve<T>` constructor.  Modelled from the spec: the
`numeric_cast<size_t>` used to size the storage (from
`number_theory/utility.h`, not in the sources) fails with an out-of-range
condition exactly when the value is not representable, i.e. when the
limit is negative.  Then `check_overflow` raises `std::overflow_error`
when twice the bit width of the limit exceeds the 64 bits of `MultType`,
and otherwise the linear sieve loop runs. -/
def EulerSieveT.mk? (L : ℤ) : Except Err EulerSieveT :=
  if L < 0 then .error .outOfRange
  else if 64 < 2 * bit_width L.toNat then .error .overflow
  else
    let s := eulerOuterGo L.toNat (L.toNat + 1) 2 (fun _ => 0, [])
    .ok ⟨L.toNat, s.1, s.2⟩

/-- Modelled from the spec: `unsigned_abs` (from
`number_theory/utility.h`, not in the sources) returns the magnitude of
its argument as an unsigned value, correct even at the representable
minimum. -/
def unsigned_abs (n : ℤ) : ℕ := n.natAbs

/-- `EulerSieve<T>::min_prime_factor`: absolute value first, then
`std::domain_error` for magnitudes at most 1, `std::out_of_range` above
the limit, otherwise the stored factor. -/
def EulerSieveT.min_prime_factor (s : EulerSieveT) (n : ℤ) : Except Err ℕ :=
  let abs_num := unsigned_abs n
  if abs_num ≤ 1 then .error .domain
  else if s.num_limit < abs_num then .error .outOfRange
  else .ok (s.mpf abs_num)

/-- Loop of the free function `is_prime`:
`for (int i = 2; i * i <= number; ++i) if (number % i == 0) return false;`.
The `ℕ` argument is fuel (`number.toNat + 2` suffices). -/
def trialLoop (number : ℤ) : ℕ → ℤ → Bool
  | 0, _ => true
  | fuel + 1, i =>
    if i * i ≤ number then
      if number % i = 0 then false else trialLoop number fuel (i + 1)
    else true

/-- The free function `tql::is_prime` (bounded trial division). -/
def is_prime (number : ℤ) : Bool :=
  if number < 2 then false else trialLoop number (number.toNat + 2) 2

/-- `2^64`, the modulus of the `uint64_t` arithmetic used by
`coprime_pairs`. -/
def U64 : ℕ := 18446744073709551616

/-- `2 * x - y` in `uint64_t` arithmetic. -/
def childA (x y : ℕ) : ℕ := (2 * x % U64 + (U64 - y % U64)) % U64

/-- `2 * x + y` in `uint64_t` arithmetic. -/
def childB (x y : ℕ) : ℕ := (2 * x + y) % U64

/-- `x + 2 * y` in `uint64_t` arithmetic. -/
def childC (x y : ℕ) : ℕ := (x + 2 * y) % U64

/-- The `add_pair` lambda of `coprime_pairs`: append `(x, y)` when
`x <= num_limit_u64`. -/
def addPair (L : ℕ) (ps : List (ℕ × ℕ)) (x y : ℕ) : List (ℕ × ℕ) :=
  if x ≤ L then ps ++ [(x, y)] else ps

/-- One iteration of the `coprime_pairs` work-list loop: append the three
children of the current pair that stay under the limit. -/
def stepChildren (L : ℕ) (ps : List (ℕ × ℕ)) (p : ℕ × ℕ) : List (ℕ × ℕ) :=
  addPair L (addPair L (addPair L ps (childA p.1 p.2) p.1) (childB p.1 p.2) p.1)
    (childC p.1 p.2) p.2

/-- The three in-limit children of a pair, in append order. -/
def childrenL (L : ℕ) (p : ℕ × ℕ) : List (ℕ × ℕ) :=
  stepChildren L [] p

/-- The `while (visited < pairs.size())` loop of `coprime_pairs`, with
fuel.  `none` means the fuel ran out before the read cursor caught up
with the growing work list (non-termination of the source loop is the
statement that this happens for every fuel). -/
def coprimeRun (L : ℕ) : ℕ → List (ℕ × ℕ) → ℕ → Option (List (ℕ × ℕ))
  | fuel, ps, v =>
    match ps[v]? with
    | none => some ps
    | some p =>
      match fuel with
      | 0 => none
      | fuel + 1 => coprimeRun L fuel (stepChildren L ps p) (v + 1)

/-- Fuel bound for `coprimeRun`: when no `uint64_t` wrap-around occurs the
loop performs fewer than `4 ^ (L + 1)` iterations. -/
def coprimeFuel (L : ℕ) : ℕ := 4 ^ (L + 1)

/-- The free function `tql::coprime_pairs`.  Returns `some` of the result
list when the function returns; `none` when it does not return a value
(the `numeric_cast<uint64_t>` of a limit at least `2^64` fails, and for
some limits the work-list loop never terminates). -/
def coprime_pairs (L : ℤ) : Option (List (ℕ × ℕ)) :=
  if L ≤ 0 then some []
  else if (U64 : ℤ) ≤ L then none
  else
    match coprimeRun L.toNat (coprimeFuel L.toNat)
        (addPair L.toNat (addPair L.toNat [] 2 1) 3 1) 0 with
    | none => none
    | some ps => some (addPair L.toNat (addPair L.toNat ps 1 0) 1 1)

/-- The pairs reachable by the `coprime_pairs` work-list: the two seeds
`(2,1)` and `(3,1)` and, for every reachable pair, its three children
(computed in `uint64_t` arithmetic) whose first component stays under the
limit. -/
inductive CoprimeReach (L : ℕ) : ℕ × ℕ → Prop where
  | seed2 : 2 ≤ L → CoprimeReach L (2, 1)
  | seed3 : 3 ≤ L → CoprimeReach L (3, 1)
  | stepA : ∀ x y, CoprimeReach L (x, y) → childA x y ≤ L → CoprimeReach L (childA x y, x)
  | stepB : ∀ x y, CoprimeReach L (x, y) → childB x y ≤ L → CoprimeReach L (childB x y, x)
  | stepC : ∀ x y, CoprimeReach L (x, y) → childC x y ≤ L → CoprimeReach L (childC x y, y)

/-- A well-formed interior pair: `1 ≤ y < x ≤ L` and coprime. -/
def PairOK (L : ℕ) (p : ℕ × ℕ) : Prop :=
  1 ≤ p.2 ∧ p.2 < p.1 ∧ p.1 ≤ L ∧ Nat.gcd p.1 p.2 = 1

/-- Weight of a pair for the termination measure of the work-list loop. -/
def pairWeight (L : ℕ) (p : ℕ × ℕ) : ℕ := 4 ^ (L + 1 - p.1)

/-- Termination measure: total weight of the unprocessed part of the
work list. -/
def potential (L : ℕ) (ps : List (ℕ × ℕ)) (v : ℕ) : ℕ :=
  ((ps.drop v).map (pairWeight L)).sum

/-- Work-list invariant for `coprimeRun` in the wrap-around-free regime:
the cursor is in range, the list has no duplicates, every entry is a
well-formed reachable pair, and an entry is in the list exactly when it
is an in-limit seed or an in-limit child of an already processed entry. -/
def CoprimeInv (L : ℕ) (ps : List (ℕ × ℕ)) (v : ℕ) : Prop :=
  v ≤ ps.length ∧ ps.Nodup ∧ (∀ p ∈ ps, PairOK L p ∧ CoprimeReach L p) ∧
  (∀ q, q ∈ ps ↔ ((q = (2, 1) ∨ q = (3, 1)) ∧ q.1 ≤ L) ∨
    ∃ p ∈ ps.take v, q ∈ childrenL L p)

/-- The membership predicate claimed for `coprime_pairs`:
`0 ≤ y ≤ x ≤ L` and `gcd(x, y) = 1`. -/
def coprimeSpec (L : ℕ) (p : ℕ × ℕ) : Prop :=
  p.2 ≤ p.1 ∧ p.1 ≤ L ∧ Nat.gcd p.1 p.2 = 1

/-- The `EulerSieve` slots that have been written after the outer loop
has processed all numbers up to `m`: every prime up to `m`, and every
composite up to the limit whose cofactor at its least prime factor is at
most `m`. -/
def Touched (L m k : ℕ) : Prop :=
  2 ≤ k ∧ k ≤ L ∧
    ((Nat.Prime k ∧ k ≤ m) ∨ (¬Nat.Prime k ∧ k / Nat.minFac k ≤ m))

instance (L m k : ℕ) : Decidable (Touched L m k) := by
  unfold Touched
  infer_instance

/-- The ascending list of primes up to `m`. -/
def primesUpTo (m : ℕ) : List ℕ :=
  (List.range (m + 1)).filter (fun p => decide (Nat.Prime p))

/-- Invariant of the `EulerSieve` outer loop after processing all numbers
up to `m`. -/
def EulerInv (L m : ℕ) (s : (ℕ → ℕ) × List ℕ) : Prop :=
  s.2 = primesUpTo m ∧ ∀ k, s.1 k = if Touched L m k then Nat.minFac k else 0

/-- The numbers whose flag the `Sieve` constructor has cleared after the
outer loop has run for all candidates below `b`: the numbers below 2
(cleared up front) and the numbers with a divisor `d < b`, `2 ≤ d`,
whose square is at most the number. -/
def Marked (b n : ℕ) : Prop :=
  n < 2 ∨ ∃ d, 2 ≤ d ∧ d < b ∧ d ∣ n ∧ d * d ≤ n

/-- A concrete `Sieve(10)` for witnesses. -/
def sieve10 : SieveT :=
  match SieveT.mk? 10 with
  | some s => s
  | none => ⟨0, ⟨0, fun _ => false⟩⟩

/-- A concrete `EulerSieve(10)` for witnesses. -/
def euler10 : EulerSieveT :=
  match EulerSieveT.mk? 10 with
  | .ok s => s
  | .error _ => ⟨0, fun _ => 0, []⟩

/-! ### Generic facts about primality by bounded trial division -/

theorem no_small_divisor_iff_prime (n : ℕ) (h2 : 2 ≤ n) :
    (¬∃ d : ℕ, 2 ≤ d ∧ d * d ≤ n ∧ d ∣ n) ↔ Nat.Prime n := by
  constructor
  · intro h
    by_contra hnp
    refine h ⟨Nat.minFac n, ?_, ?_, Nat.minFac_dvd n⟩
    · exact (Nat.minFac_prime (by omega)).two_le
    · have := Nat.minFac_sq_le_self (by omega) hnp
      simpa [pow_two] using this
  · rintro hp ⟨d, hd2, hdd, hdvd⟩
    rcases (Nat.Prime.eq_one_or_self_of_dvd hp d hdvd) with h | h
    · omega
    · subst h
      nlinarith [hp.two_le]

theorem trialLoop_false_iff (n : ℤ) :
    ∀ (fuel : ℕ) (i : ℤ), 1 ≤ i → n < (i + fuel) * (i + fuel) →
      (trialLoop n fuel i = false ↔ ∃ j : ℤ, i ≤ j ∧ j * j ≤ n ∧ n % j = 0) := by
  intro fuel
  induction fuel with
  | zero =>
    intro i hi hlt
    simp only [trialLoop, Nat.cast_zero, add_zero] at *
    constructor
    · intro h; exact absurd h (by simp)
    · rintro ⟨j, hij, hjj, _⟩
      have : i * i ≤ j * j := mul_le_mul hij hij (by omega) (by omega)
      omega
  | succ fuel ih =>
    intro i hi hlt
    rw [trialLoop]
    by_cases hii : i * i ≤ n
    · rw [if_pos hii]
      by_cases hmod : n % i = 0
      · simp only [hmod, if_pos rfl]
        constructor
        · intro _; exact ⟨i, le_refl i, hii, hmod⟩
        · intro _; rfl
      · rw [if_neg hmod]
        have hcast : i + (fuel + 1 : ℕ) = (i + 1) + (fuel : ℕ) := by push_cast; ring
        rw [hcast] at hlt
        rw [ih (i + 1) (by omega) hlt]
        constructor
        · rintro ⟨j, hij, hjj, hjm⟩
          exact ⟨j, by omega, hjj, hjm⟩
        · rintro ⟨j, hij, hjj, hjm⟩
          refine ⟨j, ?_, hjj, hjm⟩
          rcases eq_or_lt_of_le hij with h | h
          · exact absurd (h ▸ hmod) (by rw [← h] at hjm; exact fun _ => hmod (h ▸ hjm))
          · omega
    · rw [if_neg hii]
      constructor
      · intro h; exact absurd h (by simp)
      · rintro ⟨j, hij, hjj, _⟩
        have : i * i ≤ j * j := mul_le_mul hij hij (by omega) (by omega)
        omega

theorem is_prime_false_iff (n : ℤ) (h2 : 2 ≤ n) :
    is_prime n = false ↔ ∃ j : ℤ, 2 ≤ j ∧ j * j ≤ n ∧ j ∣ n := by
  have hn : ¬n < 2 := by omega
  rw [is_prime, if_neg hn]
  have htn : ((n.toNat : ℤ)) = n := Int.toNat_of_nonneg (by omega)
  have hlt : n < ((2 : ℤ) + (n.toNat + 2 : ℕ)) * ((2 : ℤ) + (n.toNat + 2 : ℕ)) := by
    push_cast
    nlinarith [htn]
  rw [trialLoop_false_iff n (n.toNat + 2) 2 (by omega) hlt]
  constructor
  · rintro ⟨j, hij, hjj, hjm⟩
    exact ⟨j, hij, hjj, Int.dvd_of_emod_eq_zero hjm⟩
  · rintro ⟨j, hij, hjj, hjd⟩
    exact ⟨j, hij, hjj, Int.emod_eq_zero_of_dvd hjd⟩

theorem is_prime_iff_prime (n : ℤ) (h2 : 2 ≤ n) :
    is_prime n = true ↔ Nat.Prime n.toNat := by
  have h2n : 2 ≤ n.toNat := by omega
  rw [← no_small_divisor_iff_prime n.toNat h2n]
  have : is_prime n = true ↔ ¬is_prime n = false := by
    cases h : is_prime n <;> simp
  rw [this, is_prime_false_iff n h2]
  have htn : ((n.toNat : ℤ)) = n := Int.toNat_of_nonneg (by omega)
  constructor
  · rintro h ⟨d, hd2, hdd, hdvd⟩
    refine h ⟨(d : ℤ), by exact_mod_cast hd2, ?_, ?_⟩
    · rw [← htn]; exact_mod_cast hdd
    · rw [← htn]; exact_mod_cast hdvd
  · rintro h ⟨j, hj2, hjj, hjd⟩
    refine h ⟨j.toNat, by omega, ?_, ?_⟩
    · have hj : ((j.toNat : ℤ)) = j := Int.toNat_of_nonneg (by omega)
      have : (j.toNat * j.toNat : ℤ) ≤ (n.toNat : ℤ) := by rw [hj, htn]; exact hjj
      exact_mod_cast this
    · have hj : ((j.toNat : ℤ)) = j := Int.toNat_of_nonneg (by omega)
      have : (j.toNat : ℤ) ∣ (n.toNat : ℤ) := by rw [hj, htn]; exact hjd
      exact_mod_cast this

/-- C7: the bounded trial-division `is_prime` returns `false` for every
input below 2; for inputs at least 2 it returns `false` exactly when some
integer `i` with `2 ≤ i` and `i * i ≤ n` divides `n`, i.e. it returns
`true` exactly when `n` is prime; in particular `is_prime 1 = false`,
`is_prime 2 = true`, `is_prime 15 = false`, `is_prime 9973 = true`. -/
theorem trial_is_prime_correct :
    (∀ n : ℤ, n < 2 → is_prime n = false) ∧
    (∀ n : ℤ, 2 ≤ n →
      (is_prime n = false ↔ ∃ i : ℤ, 2 ≤ i ∧ i * i ≤ n ∧ i ∣ n)) ∧
    (∀ n : ℤ, 2 ≤ n → (is_prime n = true ↔ Nat.Prime n.toNat)) ∧
    is_prime 1 = false ∧ is_prime 2 = true ∧ is_prime 15 = false ∧
    is_prime 9973 = true := by
  refine ⟨?_, ?_, ?_, by decide, by decide, by decide, by decide⟩
  · intro n hn
    simp [is_prime, if_pos hn]
  · exact fun n h2 => is_prime_false_iff n h2
  · exact fun n h2 => is_prime_iff_prime n h2

/-- C7 witness: the theorem applied at the concrete inputs `-5`, `35`
and `97`. -/
theorem trial_is_prime_correct_witness :
    is_prime (-5) = false ∧
    (is_prime 35 = false ↔ ∃ i : ℤ, 2 ≤ i ∧ i * i ≤ 35 ∧ i ∣ 35) ∧
    (is_prime 97 = true ↔ Nat.Prime (97 : ℤ).toNat) :=
  ⟨trial_is_prime_correct.1 (-5) (by decide),
   trial_is_prime_correct.2.1 35 (by decide),
   trial_is_prime_correct.2.2.1 97 (by decide)⟩

/-! ### Bit width and the EulerSieve overflow guard -/

theorem bitWidthGo_le_iff :
    ∀ (fuel n k : ℕ), n < 2 ^ fuel → (bitWidthGo fuel n ≤ k ↔ n < 2 ^ k) := by
  intro fuel
  induction fuel with
  | zero =>
    intro n k hn
    simp only [pow_zero] at hn
    have : n = 0 := by omega
    subst this
    simp only [bitWidthGo, Nat.zero_le, true_iff]
    exact pow_pos (by omega) k
  | succ fuel ih =>
    intro n k hn
    rw [bitWidthGo]
    by_cases h0 : n = 0
    · subst h0
      simp only [if_pos rfl]
      constructor
      · intro _; exact pow_pos (by omega) k
      · intro _; exact Nat.zero_le k
    · rw [if_neg h0]
      have hdiv : n / 2 < 2 ^ fuel := by
        rw [Nat.div_lt_iff_lt_mul (by omega)]
        rw [pow_succ] at hn
        exact hn
      cases k with
      | zero =>
        simp only [pow_zero]
        omega
      | succ k =>
        rw [Nat.succ_le_succ_iff, ih (n / 2) k hdiv, pow_succ,
          ← Nat.div_lt_iff_lt_mul (by omega)]

theorem bit_width_le_iff (n k : ℕ) : bit_width n ≤ k ↔ n < 2 ^ k :=
  bitWidthGo_le_iff (n + 1) n k
    (lt_of_lt_of_le (Nat.lt_two_pow n) (Nat.pow_le_pow_right (by omega) (by omega)))

/-- C4: constructing `EulerSieve(L)` fails with `std::overflow_error`
exactly when twice the bit width of `L` exceeds the 64 bits of the
internal multiplication type, equivalently exactly when `2^32 ≤ L`; on
failure no sieve state is produced at all. -/
theorem euler_overflow_iff (L : ℤ) (hL : 0 ≤ L) :
    (EulerSieveT.mk? L = Except.error Err.overflow ↔ 64 < 2 * bit_width L.toNat) ∧
    (64 < 2 * bit_width L.toNat ↔ 2 ^ 32 ≤ L.toNat) := by
  constructor
  · rw [EulerSieveT.mk?, if_neg (by omega)]
    by_cases h : 64 < 2 * bit_width L.toNat
    · simp [if_pos h, h]
    · simp [if_neg h, h]
  · have := bit_width_le_iff L.toNat 32
    omega

/-- C4 witness: at `L = 2^32` the construction fails with overflow, and
at `L = 2^32 - 1` it does not. -/
theorem euler_overflow_iff_witness :
    (EulerSieveT.mk? 4294967296 = Except.error Err.overflow ↔
      64 < 2 * bit_width (4294967296 : ℤ).toNat) ∧
    (64 < 2 * bit_width (4294967295 : ℤ).toNat ↔ 2 ^ 32 ≤ (4294967295 : ℤ).toNat) :=
  ⟨(euler_overflow_iff 4294967296 (by decide)).1,
   (euler_overflow_iff 4294967295 (by decide)).2⟩

/-! ### The min_prime_factor query interface (C5) -/

/-- C5: `min_prime_factor` takes the absolute value of its argument
first; it fails with `std::domain_error` exactly when the magnitude is at
most 1, fails with `std::out_of_range` exactly when the magnitude is at
least 2 and exceeds the limit, and otherwise returns the stored factor of
the magnitude — so a negative argument gives the same result as its
magnitude. -/
theorem euler_min_prime_factor_interface (L : ℤ) (s : EulerSieveT)
    (hs : EulerSieveT.mk? L = Except.ok s) (n : ℤ) :
    (s.min_prime_factor n = Except.error Err.domain ↔ n.natAbs ≤ 1) ∧
    (s.min_prime_factor n = Except.error Err.outOfRange ↔
      2 ≤ n.natAbs ∧ s.num_limit < n.natAbs) ∧
    (2 ≤ n.natAbs → n.natAbs ≤ s.num_limit →
      s.min_prime_factor n = Except.ok (s.mpf n.natAbs) ∧
      s.min_prime_factor n = s.min_prime_factor (n.natAbs : ℤ)) := by
  simp only [EulerSieveT.min_prime_factor, unsigned_abs, Int.natAbs_ofNat]
  by_cases h1 : n.natAbs ≤ 1
  · rw [if_pos h1]
    refine ⟨⟨fun _ => h1, fun _ => rfl⟩, ?_, ?_⟩
    · constructor
      · intro hc; exact absurd hc (by simp)
      · intro hc; omega
    · intro hge _; omega
  · rw [if_neg h1]
    by_cases h2 : s.num_limit < n.natAbs
    · rw [if_pos h2]
      refine ⟨?_, ?_, ?_⟩
      · constructor
        · intro hc; exact absurd hc (by simp)
        · intro hc; omega
      · constructor
        · intro _; exact ⟨by omega, h2⟩
        · intro _; rfl
      · intro _ hle; omega
    · rw [if_neg h2]
      refine ⟨?_, ?_, ?_⟩
      · constructor
        · intro hc; exact absurd hc (by simp)
        · intro hc; omega
      · constructor
        · intro hc; exact absurd hc (by simp)
        · intro hc; omega
      · intro _ _
        exact ⟨by trivial, by trivial⟩

/-- C5 witness: on `EulerSieve(10)`, the query at `-6` returns the stored
factor of 6, the same as at `6`. -/
theorem euler_min_prime_factor_interface_witness :
    (euler10.min_prime_factor (-6) = Except.error Err.domain ↔ (-6 : ℤ).natAbs ≤ 1) ∧
    (euler10.min_prime_factor (-6) = Except.error Err.outOfRange ↔
      2 ≤ (-6 : ℤ).natAbs ∧ euler10.num_limit < (-6 : ℤ).natAbs) ∧
    (euler10.min_prime_factor (-6) = Except.ok (euler10.mpf (-6 : ℤ).natAbs) ∧
      euler10.min_prime_factor (-6) = euler10.min_prime_factor (((-6 : ℤ).natAbs : ℤ))) := by
  have h := euler_min_prime_factor_interface 10 euler10 (by rfl) (-6)
  exact ⟨h.1, h.2.1, h.2.2 (by decide) (by decide)⟩

/-! ### The Sieve constructor at limit 0 (C8) -/

/-- C8: at limit `L = 0` the `Sieve` constructor performs an
out-of-bounds write: it unconditionally clears the flag at index 1 of a
flag vector of size `0 + 1 = 1` (undefined behaviour on the
`std::vector`), so it is not the case that every access stays in bounds
for every non-negative limit. -/
theorem sieve_ctor_out_of_bounds_at_zero : SieveT.mk? 0 = none := rfl

/-! ### Correctness of the Sieve constructor (C3) -/

theorem BoolVec.write_eq_some {a : BoolVec} {i : ℕ} {v : Bool} {a2 : BoolVec}
    (h : a.write i v = some a2) :
    i < a.size ∧ a2.size = a.size ∧ ∀ n, a2.data n = if n = i then v else a.data n := by
  rw [BoolVec.write] at h
  by_cases hi : i < a.size
  · rw [if_pos hi] at h
    have h2 := Option.some.inj h
    subst h2
    exact ⟨hi, rfl, fun n => rfl⟩
  · rw [if_neg hi] at h
    exact Option.noConfusion h

theorem BoolVec.read_eq_some {a : BoolVec} {i : ℕ} {b : Bool}
    (h : a.read i = some b) : i < a.size ∧ b = a.data i := by
  rw [BoolVec.read] at h
  by_cases hi : i < a.size
  · rw [if_pos hi] at h
    exact ⟨hi, (Option.some.inj h).symm⟩
  · rw [if_neg hi] at h
    exact Option.noConfusion h

theorem eraInner_spec (L i : ℕ) (hi : 1 ≤ i) :
    ∀ (fuel j : ℕ) (a a' : BoolVec), eraInner L i fuel j a = some a' →
      a'.size = a.size ∧
      ∀ n, a'.data n = if j ≤ n ∧ n ≤ L ∧ n % i = j % i then false else a.data n := by
  intro fuel
  induction fuel with
  | zero =>
    intro j a a' h
    exact Option.noConfusion h
  | succ fuel ih =>
    intro j a a' h
    rw [eraInner] at h
    by_cases hj : j ≤ L
    · rw [if_pos hj] at h
      cases hw : a.write j false with
      | none =>
        rw [hw] at h
        exact Option.noConfusion h
      | some a2 =>
        rw [hw] at h
        have h2 : eraInner L i fuel (j + i) a2 = some a' := h
        obtain ⟨hjs, hsz2, hdata2⟩ := BoolVec.write_eq_some hw
        obtain ⟨hsz, hdata⟩ := ih (j + i) a2 a' h2
        refine ⟨hsz.trans hsz2, ?_⟩
        intro n
        rw [hdata n, hdata2 n]
        by_cases hn : n = j
        · subst hn
          rw [if_neg (by omega), if_pos rfl, if_pos ⟨le_refl n, hj, rfl⟩]
        · rw [if_neg hn]
          by_cases hc : j + i ≤ n ∧ n ≤ L ∧ n % i = (j + i) % i
          · rw [if_pos hc, if_pos ?_]
            obtain ⟨hc1, hc2, hc3⟩ := hc
            rw [Nat.add_mod_right] at hc3
            exact ⟨by omega, hc2, hc3⟩
          · rw [if_neg hc, if_neg ?_]
            rintro ⟨hc1, hc2, hc3⟩
            apply hc
            have hdvd : i ∣ n - j := (Nat.modEq_iff_dvd' hc1).mp hc3.symm
            have hpos : 0 < n - j := by omega
            have hge : i ≤ n - j := Nat.le_of_dvd hpos hdvd
            rw [Nat.add_mod_right]
            exact ⟨by omega, hc2, hc3⟩
    · rw [if_neg hj] at h
      have ha : a = a' := Option.some.inj h
      subst ha
      refine ⟨rfl, ?_⟩
      intro n
      rw [if_neg ?_]
      rintro ⟨hc1, hc2, _⟩
      exact hj (le_trans hc1 hc2)

theorem eraOuter_spec (L : ℕ) :
    ∀ (fuel c : ℕ) (a a' : BoolVec), 2 ≤ c → a.size = L + 1 →
      (∀ n, n ≤ L → (a.data n = false ↔ Marked c n)) →
      eraOuter L fuel c a = some a' →
      a'.size = L + 1 ∧
      ∀ n, n ≤ L → (a'.data n = false ↔ (n < 2 ∨ ∃ d, 2 ≤ d ∧ d ∣ n ∧ d * d ≤ n)) := by
  intro fuel
  induction fuel with
  | zero =>
    intro c a a' _ _ _ h
    exact Option.noConfusion h
  | succ fuel ih =>
    intro c a a' hc hsz hinv h
    rw [eraOuter] at h
    by_cases hcc : c * c ≤ L
    · rw [if_pos hcc] at h
      have hcL : c ≤ L := le_trans (Nat.le_mul_of_pos_left c (by omega)) hcc
      cases hr : a.read c with
      | none =>
        rw [hr] at h
        exact Option.noConfusion h
      | some flag =>
        rw [hr] at h
        obtain ⟨hcsz, hflag⟩ := BoolVec.read_eq_some hr
        by_cases hfl : flag = true
        · subst hfl
          have hmatch : (match eraInner L c (L + 1) (c * c) a with
            | none => none
            | some a2 => eraOuter L fuel (c + 1) a2) = some a' := h
          cases he : eraInner L c (L + 1) (c * c) a with
          | none =>
            rw [he] at hmatch
            exact Option.noConfusion hmatch
          | some a2 =>
            rw [he] at hmatch
            have h2 : eraOuter L fuel (c + 1) a2 = some a' := hmatch
            obtain ⟨hsz2, hdata2⟩ := eraInner_spec L c (by omega) (L + 1) (c * c) a a2 he
            refine ih (c + 1) a2 a' (by omega) (hsz2.trans hsz) ?_ h2
            intro n hn
            rw [hdata2 n]
            have hmod : (c * c) % c = 0 := Nat.mul_mod_left c c
            by_cases hcond : c * c ≤ n ∧ n ≤ L ∧ n % c = (c * c) % c
            · rw [if_pos hcond]
              simp only [Marked]
              constructor
              · intro _
                right
                refine ⟨c, hc, by omega, ?_, hcond.1⟩
                have := hcond.2.2
                rw [hmod] at this
                exact Nat.dvd_iff_mod_eq_zero.mpr this
              · intro _
                trivial
            · rw [if_neg hcond]
              rw [hinv n hn]
              simp only [Marked]
              constructor
              · rintro (h1 | ⟨d, hd2, hdc, hdvd, hdd⟩)
                · exact Or.inl h1
                · exact Or.inr ⟨d, hd2, by omega, hdvd, hdd⟩
              · rintro (h1 | ⟨d, hd2, hdc, hdvd, hdd⟩)
                · exact Or.inl h1
                · by_cases hdceq : d = c
                  · subst hdceq
                    exfalso
                    apply hcond
                    refine ⟨hdd, hn, ?_⟩
                    rw [hmod]
                    exact Nat.dvd_iff_mod_eq_zero.mp hdvd
                  · exact Or.inr ⟨d, hd2, by omega, hdvd, hdd⟩
        · have hfl2 : flag = false := by
            cases flag
            · rfl
            · exact absurd rfl hfl
          subst hfl2
          have h2 : eraOuter L fuel (c + 1) a = some a' := h
          have hmc : Marked c c := (hinv c hcL).mp hflag.symm
          refine ih (c + 1) a a' (by omega) hsz ?_ h2
          intro n hn
          rw [hinv n hn]
          simp only [Marked]
          constructor
          · rintro (h1 | ⟨d, hd2, hdc, hdvd, hdd⟩)
            · exact Or.inl h1
            · exact Or.inr ⟨d, hd2, by omega, hdvd, hdd⟩
          · rintro (h1 | ⟨d, hd2, hdc, hdvd, hdd⟩)
            · exact Or.inl h1
            · by_cases hdceq : d = c
              · subst hdceq
                rcases hmc with h1 | ⟨e, he2, hec, hedvd, hee⟩
                · omega
                · refine Or.inr ⟨e, he2, hec, dvd_trans hedvd hdvd, ?_⟩
                  have : d ≤ n := le_trans (Nat.le_mul_of_pos_left d (by omega)) hdd
                  omega
              · exact Or.inr ⟨d, hd2, by omega, hdvd, hdd⟩
    · rw [if_neg hcc] at h
      have ha : a = a' := Option.some.inj h
      subst ha
      refine ⟨hsz, ?_⟩
      intro n hn
      rw [hinv n hn]
      simp only [Marked]
      constructor
      · rintro (h1 | ⟨d, hd2, hdc, hdvd, hdd⟩)
        · exact Or.inl h1
        · exact Or.inr ⟨d, hd2, hdvd, hdd⟩
      · rintro (h1 | ⟨d, hd2, hdvd, hdd⟩)
        · exact Or.inl h1
        · refine Or.inr ⟨d, hd2, ?_, hdvd, hdd⟩
          by_contra hdc
          have : c * c ≤ d * d := Nat.mul_le_mul (by omega) (by omega)
          omega

theorem sieve_mk_spec (L : ℕ) (s : SieveT) (h : SieveT.mk? L = some s) :
    s.num_limit = L ∧ s.flags.size = L + 1 ∧ 1 ≤ L ∧
    ∀ n, n ≤ L →
      (s.flags.data n = true ↔ 2 ≤ n ∧ ¬∃ d, 2 ≤ d ∧ d ∣ n ∧ d * d ≤ n) := by
  have h0 : (match BoolVec.write ⟨L + 1, fun _ => true⟩ 0 false with
    | none => none
    | some a1 =>
      match a1.write 1 false with
      | none => none
      | some a2 =>
        match eraOuter L (L + 1) 2 a2 with
        | none => none
        | some a3 => some (SieveT.mk L a3)) = some s := h
  cases hw0 : BoolVec.write ⟨L + 1, fun _ => true⟩ 0 false with
  | none =>
    rw [hw0] at h0
    exact Option.noConfusion h0
  | some a1 =>
    rw [hw0] at h0
    have h1 : (match a1.write 1 false with
      | none => none
      | some a2 =>
        match eraOuter L (L + 1) 2 a2 with
        | none => none
        | some a3 => some (SieveT.mk L a3)) = some s := h0
    cases hw1 : a1.write 1 false with
    | none =>
      rw [hw1] at h1
      exact Option.noConfusion h1
    | some a2 =>
      rw [hw1] at h1
      have h2 : (match eraOuter L (L + 1) 2 a2 with
        | none => none
        | some a3 => some (SieveT.mk L a3)) = some s := h1
      cases ho : eraOuter L (L + 1) 2 a2 with
      | none =>
        rw [ho] at h2
        exact Option.noConfusion h2
      | some a3 =>
        rw [ho] at h2
        have hs : SieveT.mk L a3 = s := Option.some.inj h2
        obtain ⟨h0s, h0sz, h0d⟩ := BoolVec.write_eq_some hw0
        obtain ⟨h1s, h1sz, h1d⟩ := BoolVec.write_eq_some hw1
        have ha1sz : a1.size = L + 1 := h0sz
        have hL1 : 1 ≤ L := by omega
        have ha2sz : a2.size = L + 1 := h1sz.trans h0sz
        have hinv0 : ∀ n, n ≤ L → (a2.data n = false ↔ Marked 2 n) := by
          intro n hn
          rw [h1d n, h0d n]
          simp only [Marked]
          by_cases hn1 : n = 1
          · subst hn1
            rw [if_pos rfl]
            constructor
            · intro _
              exact Or.inl (by omega)
            · intro _
              rfl
          · rw [if_neg hn1]
            by_cases hn0 : n = 0
            · subst hn0
              rw [if_pos rfl]
              constructor
              · intro _
                exact Or.inl (by omega)
              · intro _
                rfl
            · rw [if_neg hn0]
              constructor
              · intro hfalse
                exact Bool.noConfusion hfalse
              · rintro (h1 | ⟨d, hd2, hdc, _, _⟩)
                · omega
                · omega
        obtain ⟨h3sz, h3d⟩ := eraOuter_spec L (L + 1) 2 a2 a3 (by omega) ha2sz hinv0 ho
        subst hs
        refine ⟨rfl, h3sz, hL1, ?_⟩
        intro n hn
        constructor
        · intro htrue
          refine ⟨?_, ?_⟩
          · by_contra hlt
            have hfa : a3.data n = false := (h3d n hn).mpr (Or.inl (by omega))
            rw [htrue] at hfa
            exact Bool.noConfusion hfa
          · rintro ⟨d, hd2, hdvd, hdd⟩
            have hfa : a3.data n = false := (h3d n hn).mpr (Or.inr ⟨d, hd2, hdvd, hdd⟩)
            rw [htrue] at hfa
            exact Bool.noConfusion hfa
        · rintro ⟨h2n, hnd⟩
          cases hx : a3.data n with
          | false =>
            exfalso
            rcases (h3d n hn).mp hx with h1 | ⟨d, hd2, hdvd, hdd⟩
            · omega
            · exact hnd ⟨d, hd2, hdvd, hdd⟩
          | true => rfl

/-- C3: on every successfully constructed `Sieve(L)` (restricted to
limits where the 64-bit loop arithmetic is exact, which covers every
constructible sieve), `is_prime(n)` returns `false` for `n < 0`, fails
with `std::out_of_range` for `n > L`, returns `false` for `n = 0, 1`,
and for `2 ≤ n ≤ L` returns `true` exactly when `n` has no divisor `d`
with `2 ≤ d` and `d * d ≤ n`, i.e. exactly when `n` is prime.  The query
is a pure function of the stored state. -/
theorem sieve_is_prime_correct (L : ℕ) (s : SieveT)
    (_hexact : L ≤ 2 ^ 64 - 2 ^ 33) (hs : SieveT.mk? L = some s) (n : ℤ) :
    (n < 0 → s.is_prime n = Except.ok false) ∧
    ((L : ℤ) < n → s.is_prime n = Except.error Err.outOfRange) ∧
    ((n = 0 ∨ n = 1) → s.is_prime n = Except.ok false) ∧
    (2 ≤ n → n ≤ (L : ℤ) →
      ((s.is_prime n = Except.ok true ↔
        ¬∃ d : ℕ, 2 ≤ d ∧ d * d ≤ n.toNat ∧ d ∣ n.toNat) ∧
       (s.is_prime n = Except.ok true ↔ Nat.Prime n.toNat))) := by
  obtain ⟨hnum, hsz, hL1, hdata⟩ := sieve_mk_spec L s hs
  refine ⟨?_, ?_, ?_, ?_⟩
  · intro hneg
    rw [SieveT.is_prime, if_pos hneg]
  · intro hgt
    rw [SieveT.is_prime, if_neg (by omega), hnum, if_pos hgt]
  · rintro (rfl | rfl)
    · rw [SieveT.is_prime, if_neg (by omega), if_neg (by rw [hnum]; omega)]
      have h0 : s.flags.data 0 = false := by
        cases hx : s.flags.data 0 with
        | false => rfl
        | true => exact absurd ((hdata 0 (by omega)).mp hx).1 (by omega)
      rw [show ((0 : ℤ)).toNat = 0 from rfl, h0]
    · rw [SieveT.is_prime, if_neg (by omega), if_neg (by rw [hnum]; omega)]
      have h1 : s.flags.data 1 = false := by
        cases hx : s.flags.data 1 with
        | false => rfl
        | true => exact absurd ((hdata 1 hL1).mp hx).1 (by omega)
      rw [show ((1 : ℤ)).toNat = 1 from rfl, h1]
  · intro h2 hle
    have hn2 : 2 ≤ n.toNat := by omega
    have hnle : n.toNat ≤ L := by omega
    rw [SieveT.is_prime, if_neg (by omega), if_neg (by rw [hnum]; omega)]
    have hiff := hdata n.toNat hnle
    have hmain : Except.ok (ε := Err) (s.flags.data n.toNat) = Except.ok true ↔
        ¬∃ d : ℕ, 2 ≤ d ∧ d * d ≤ n.toNat ∧ d ∣ n.toNat := by
      constructor
      · intro hok
        have htrue : s.flags.data n.toNat = true := by
          injection hok
        rcases hiff.mp htrue with ⟨_, hnd⟩
        rintro ⟨d, hd2, hdd, hdvd⟩
        exact hnd ⟨d, hd2, hdvd, hdd⟩
      · intro hnd
        have htrue : s.flags.data n.toNat = true :=
          hiff.mpr ⟨hn2, fun ⟨d, hd2, hdvd, hdd⟩ => hnd ⟨d, hd2, hdd, hdvd⟩⟩
        rw [htrue]
    refine ⟨hmain, ?_⟩
    rw [hmain]
    exact no_small_divisor_iff_prime n.toNat hn2

/-- C3 witness: on `Sieve(10)`, `is_prime` is correct at `7` and returns
`false` at `-3`. -/
theorem sieve_is_prime_correct_witness :
    (sieve10.is_prime 7 = Except.ok true ↔ Nat.Prime (7 : ℤ).toNat) ∧
    sieve10.is_prime (-3) = Except.ok false :=
  ⟨((sieve_is_prime_correct 10 sieve10 (by decide) (by rfl) 7).2.2.2
      (by decide) (by decide)).2,
   (sieve_is_prime_correct 10 sieve10 (by decide) (by rfl) (-3)).1 (by decide)⟩

/-! ### Correctness of the EulerSieve constructor (C1, C6) -/

theorem upd_same (f : ℕ → ℕ) (k v : ℕ) : upd f k v k = v := by
  simp [upd]

theorem upd_other (f : ℕ → ℕ) (k v n : ℕ) (h : n ≠ k) : upd f k v n = f n := by
  simp [upd, h]

theorem mem_primesUpTo (m p : ℕ) : p ∈ primesUpTo m ↔ p ≤ m ∧ p.Prime := by
  rw [primesUpTo, List.mem_filter, List.mem_range]
  simp only [decide_eq_true_eq]
  constructor <;> rintro ⟨h1, h2⟩ <;> exact ⟨by omega, h2⟩

theorem primesUpTo_pairwise (m : ℕ) : List.Pairwise (· < ·) (primesUpTo m) :=
  (List.pairwise_lt_range (m + 1)).filter _

theorem primesUpTo_zero_one : primesUpTo 0 = [] ∧ primesUpTo 1 = [] := by
  constructor <;>
  · apply List.eq_nil_iff_forall_not_mem.mpr
    intro p hp
    rw [mem_primesUpTo] at hp
    have := hp.2.two_le
    omega

theorem two_le_cofactor (k : ℕ) (h2 : 2 ≤ k) (hnp : ¬k.Prime) :
    2 ≤ k / k.minFac := by
  have hdvd : k.minFac ∣ k := Nat.minFac_dvd k
  have hmul : k.minFac * (k / k.minFac) = k := Nat.mul_div_cancel' hdvd
  have hpr : k.minFac.Prime := Nat.minFac_prime (by omega)
  have hpos : 0 < k / k.minFac :=
    Nat.div_pos (Nat.minFac_le (by omega)) hpr.pos
  by_contra hlt
  have h1 : k / k.minFac = 1 := by omega
  rw [h1, Nat.mul_one] at hmul
  exact hnp (hmul ▸ hpr)

theorem cofactor_le_half (k : ℕ) (h2 : 2 ≤ k) : k / k.minFac ≤ k / 2 :=
  Nat.div_le_div_left (Nat.minFac_prime (by omega)).two_le (by omega)

theorem minFac_mul_eq (p v : ℕ) (hp : p.Prime) (hpv : p ≤ Nat.minFac v)
    (hv : 2 ≤ v) : Nat.minFac (p * v) = p := by
  have hle : Nat.minFac (p * v) ≤ p :=
    Nat.minFac_le_of_dvd hp.two_le ⟨v, rfl⟩
  have hne : p * v ≠ 1 := by
    have := hp.two_le
    intro hc
    have := Nat.eq_one_of_mul_eq_one_left hc
    omega
  have hqp : (Nat.minFac (p * v)).Prime := Nat.minFac_prime hne
  have hq : Nat.minFac (p * v) ∣ p * v := Nat.minFac_dvd _
  rcases (Nat.Prime.dvd_mul hqp).mp hq with h | h
  · exact (Nat.prime_dvd_prime_iff_eq hqp hp).mp h
  · have := Nat.minFac_le_of_dvd hqp.two_le h
    omega

theorem eulerInner_unchanged (L v : ℕ) (hv : 2 ≤ v) :
    ∀ (P : List ℕ) (mpf : ℕ → ℕ) (k : ℕ),
      (∀ p ∈ P, 2 ≤ p) →
      (¬∃ p, p ∈ P ∧ p ≤ mpf v ∧ p * v ≤ L ∧ k = p * v) →
      eulerInner L v P mpf k = mpf k := by
  intro P
  induction P with
  | nil => intro mpf k _ _; rfl
  | cons p rest ih =>
    intro mpf k hall hno
    rw [eulerInner]
    by_cases h1 : mpf v < p
    · rw [if_pos h1]
    · rw [if_neg h1]
      by_cases h2 : L < p * v
      · rw [if_pos h2]
      · rw [if_neg h2]
        have hp2 : 2 ≤ p := hall p (by simp)
        have hkp : k ≠ p * v := by
          intro hc
          exact hno ⟨p, by simp, by omega, by omega, hc⟩
        have hvne : v ≠ p * v := by
          have : 2 * v ≤ p * v := Nat.mul_le_mul_right v hp2
          omega
        rw [ih (upd mpf (p * v) p) k (fun q hq => hall q (by simp [hq])) ?_,
          upd_other mpf (p * v) p k hkp]
        rintro ⟨q, hqmem, hqle, hqL, hqk⟩
        rw [upd_other mpf (p * v) p v hvne] at hqle
        exact hno ⟨q, by simp [hqmem], hqle, hqL, hqk⟩

theorem eulerInner_written (L v : ℕ) (hv : 2 ≤ v) :
    ∀ (P : List ℕ) (mpf : ℕ → ℕ) (q : ℕ),
      (∀ p ∈ P, 2 ≤ p) → List.Pairwise (· < ·) P →
      q ∈ P → q ≤ mpf v → q * v ≤ L →
      eulerInner L v P mpf (q * v) = q := by
  intro P
  induction P with
  | nil => intro mpf q _ _ hq; exact absurd hq (by simp)
  | cons p rest ih =>
    intro mpf q hall hpair hqmem hqle hqL
    have hp2 : 2 ≤ p := hall p (by simp)
    have hvne : v ≠ p * v := by
      have : 2 * v ≤ p * v := Nat.mul_le_mul_right v hp2
      omega
    rw [eulerInner]
    rcases List.mem_cons.mp hqmem with rfl | hqrest
    · rw [if_neg (by omega), if_neg (by omega)]
      rw [eulerInner_unchanged L v hv rest (upd mpf (q * v) q) (q * v)
        (fun r hr => hall r (by simp [hr])) ?_, upd_same]
      rintro ⟨r, hrmem, hrle, hrL, hrk⟩
      have hrq : q < r := by
        have := (List.pairwise_cons.mp hpair).1 r hrmem
        exact this
      have : r = q := Nat.eq_of_mul_eq_mul_right (by omega) hrk.symm
      omega
    · have hpq : p < q := (List.pairwise_cons.mp hpair).1 q hqrest
      have hqv : p * v < q * v := Nat.mul_lt_mul_of_lt_of_le hpq (le_refl v) (by omega)
      rw [if_neg (by omega), if_neg (by omega)]
      have hkp : q * v ≠ p * v := by omega
      have := ih (upd mpf (p * v) p) q (fun r hr => hall r (by simp [hr]))
        (List.pairwise_cons.mp hpair).2 hqrest ?_ hqL
      · exact this
      · rw [upd_other mpf (p * v) p v hvne]
        exact hqle

theorem primesUpTo_succ (m : ℕ) :
    primesUpTo (m + 1) =
      primesUpTo m ++ if Nat.Prime (m + 1) then [m + 1] else [] := by
  rw [primesUpTo, primesUpTo, List.range_succ, List.filter_append]
  congr 1
  by_cases hp : Nat.Prime (m + 1)
  · rw [if_pos hp]
    simp [hp]
  · rw [if_neg hp]
    simp [hp]

theorem euler_step (L m : ℕ) (s : (ℕ → ℕ) × List ℕ) (hinv : EulerInv L m s)
    (hm : 1 ≤ m) (hle : m + 1 ≤ L) :
    EulerInv L (m + 1)
      (eulerInner L (m + 1)
          (if s.1 (m + 1) = 0 then (upd s.1 (m + 1) (m + 1), s.2 ++ [m + 1]) else s).2
          (if s.1 (m + 1) = 0 then (upd s.1 (m + 1) (m + 1), s.2 ++ [m + 1]) else s).1,
        (if s.1 (m + 1) = 0 then (upd s.1 (m + 1) (m + 1), s.2 ++ [m + 1]) else s).2) := by
  obtain ⟨hprimes, hmpf⟩ := hinv
  have hv2 : 2 ≤ m + 1 := by omega
  have hminv2 : 2 ≤ Nat.minFac (m + 1) := (Nat.minFac_prime (by omega)).two_le
  have hsv : s.1 (m + 1) = if Nat.Prime (m + 1) then 0 else Nat.minFac (m + 1) := by
    by_cases hp : Nat.Prime (m + 1)
    · have hnt : ¬Touched L m (m + 1) := by
        rintro ⟨_, _, (⟨_, hvm⟩ | ⟨hnp, _⟩)⟩
        · omega
        · exact hnp hp
      rw [hmpf (m + 1), if_neg hnt, if_pos hp]
    · have ht : Touched L m (m + 1) := by
        refine ⟨hv2, hle, Or.inr ⟨hp, ?_⟩⟩
        have h1 := cofactor_le_half (m + 1) hv2
        have h2 : (m + 1) / 2 < m + 1 := Nat.div_lt_self (by omega) (by omega)
        omega
      rw [hmpf (m + 1), if_pos ht, if_neg hp]
  set S1 := (if s.1 (m + 1) = 0 then (upd s.1 (m + 1) (m + 1), s.2 ++ [m + 1]) else s)
    with hS1
  have hfP : S1.2 = primesUpTo (m + 1) := by
    rw [hS1, hsv]
    by_cases hp : Nat.Prime (m + 1)
    · rw [if_pos hp, if_pos rfl]
      show s.2 ++ [m + 1] = primesUpTo (m + 1)
      rw [hprimes, primesUpTo_succ, if_pos hp]
    · rw [if_neg hp, if_neg (by omega)]
      show s.2 = primesUpTo (m + 1)
      rw [hprimes, primesUpTo_succ, if_neg hp, List.append_nil]
  have hfV : S1.1 (m + 1) = Nat.minFac (m + 1) := by
    rw [hS1, hsv]
    by_cases hp : Nat.Prime (m + 1)
    · rw [if_pos hp, if_pos rfl]
      show upd s.1 (m + 1) (m + 1) (m + 1) = Nat.minFac (m + 1)
      rw [upd_same]
      exact ((Nat.prime_def_minFac.mp hp).2).symm
    · rw [if_neg hp, if_neg (by omega)]
      show s.1 (m + 1) = Nat.minFac (m + 1)
      rw [hsv, if_neg hp]
  have hfO : ∀ k, k ≠ m + 1 → S1.1 k = s.1 k := by
    intro k hk
    rw [hS1, hsv]
    by_cases hp : Nat.Prime (m + 1)
    · rw [if_pos hp, if_pos rfl]
      exact upd_other _ _ _ _ hk
    · rw [if_neg hp, if_neg (by omega)]
  refine ⟨hfP, ?_⟩
  intro k
  show eulerInner L (m + 1) S1.2 S1.1 k = _
  rw [hfP]
  have hall : ∀ p ∈ primesUpTo (m + 1), 2 ≤ p :=
    fun p hp => ((mem_primesUpTo _ p).mp hp).2.two_le
  by_cases hE : ∃ p, Nat.Prime p ∧ p ≤ Nat.minFac (m + 1) ∧ p * (m + 1) ≤ L ∧
      k = p * (m + 1)
  · obtain ⟨p, hpp, hple, hpL, rfl⟩ := hE
    have hpmem : p ∈ primesUpTo (m + 1) :=
      (mem_primesUpTo _ p).mpr ⟨le_trans hple (Nat.minFac_le (by omega)), hpp⟩
    rw [eulerInner_written L (m + 1) hv2 (primesUpTo (m + 1)) S1.1 p hall
      (primesUpTo_pairwise _) hpmem (by rw [hfV]; exact hple) hpL]
    have hcomp : ¬(p * (m + 1)).Prime := by
      intro hc
      rcases Nat.Prime.eq_one_or_self_of_dvd hc p ⟨m + 1, rfl⟩ with h | h
      · have := hpp.two_le
        omega
      · have h1 : p * 1 = p * (m + 1) := by rw [Nat.mul_one]; exact h
        have := Nat.eq_of_mul_eq_mul_left hpp.pos h1
        omega
    have hminfac : Nat.minFac (p * (m + 1)) = p := minFac_mul_eq p (m + 1) hpp hple hv2
    have hcof : p * (m + 1) / Nat.minFac (p * (m + 1)) = m + 1 := by
      rw [hminfac]
      exact Nat.mul_div_cancel_left (m + 1) hpp.pos
    have ht : Touched L (m + 1) (p * (m + 1)) := by
      refine ⟨?_, hpL, Or.inr ⟨hcomp, by rw [hcof]⟩⟩
      simpa using Nat.mul_le_mul hpp.two_le (show 1 ≤ m + 1 by omega)
    rw [if_pos ht, hminfac]
  · have hnp2 : ¬∃ p, p ∈ primesUpTo (m + 1) ∧ p ≤ S1.1 (m + 1) ∧
        p * (m + 1) ≤ L ∧ k = p * (m + 1) := by
      rintro ⟨p, hpmem, hple, hpL, hk⟩
      rw [hfV] at hple
      exact hE ⟨p, ((mem_primesUpTo _ p).mp hpmem).2, hple, hpL, hk⟩
    rw [eulerInner_unchanged L (m + 1) hv2 (primesUpTo (m + 1)) S1.1 k hall hnp2]
    by_cases hkv : k = m + 1
    · subst hkv
      rw [hfV]
      have ht : Touched L (m + 1) (m + 1) := by
        by_cases hp : Nat.Prime (m + 1)
        · exact ⟨hv2, hle, Or.inl ⟨hp, le_refl _⟩⟩
        · refine ⟨hv2, hle, Or.inr ⟨hp, ?_⟩⟩
          have h1 := cofactor_le_half (m + 1) hv2
          have h2 : (m + 1) / 2 < m + 1 := Nat.div_lt_self (by omega) (by omega)
          omega
      rw [if_pos ht]
    · rw [hfO k hkv, hmpf k]
      by_cases ht : Touched L m k
      · rw [if_pos ht, if_pos ?_]
        obtain ⟨h1, h2, h3⟩ := ht
        refine ⟨h1, h2, ?_⟩
        rcases h3 with ⟨hp, hm'⟩ | ⟨hp, hm'⟩
        · exact Or.inl ⟨hp, by omega⟩
        · exact Or.inr ⟨hp, by omega⟩
      · rw [if_neg ht, if_neg ?_]
        rintro ⟨h1, h2, (⟨hp, hm'⟩ | ⟨hp, hm'⟩)⟩
        · exact ht ⟨h1, h2, Or.inl ⟨hp, by omega⟩⟩
        · by_cases hcof : k / Nat.minFac k ≤ m
          · exact ht ⟨h1, h2, Or.inr ⟨hp, hcof⟩⟩
          · have hcofeq : k / Nat.minFac k = m + 1 := by omega
            have hpk : (Nat.minFac k).Prime := Nat.minFac_prime (by omega)
            have hkmul : Nat.minFac k * (m + 1) = k := by
              rw [← hcofeq]
              exact Nat.mul_div_cancel' (Nat.minFac_dvd k)
            have hdvdv : (m + 1) ∣ k := Dvd.intro_left (Nat.minFac k) hkmul
            have hple : Nat.minFac k ≤ Nat.minFac (m + 1) :=
              Nat.minFac_le_of_dvd hminv2 (dvd_trans (Nat.minFac_dvd (m + 1)) hdvdv)
            exact hE ⟨Nat.minFac k, hpk, hple, by rw [hkmul]; exact h2,
              (hkmul).symm⟩

theorem eulerOuterGo_spec (L : ℕ) :
    ∀ (fuel m : ℕ) (s : (ℕ → ℕ) × List ℕ), EulerInv L m s → 1 ≤ m →
      L ≤ m + fuel → EulerInv L (max m L) (eulerOuterGo L fuel (m + 1) s) := by
  intro fuel
  induction fuel with
  | zero =>
    intro m s hinv hm hL
    rw [eulerOuterGo]
    have hmax : max m L = m := by omega
    rw [hmax]
    exact hinv
  | succ fuel ih =>
    intro m s hinv hm hL
    rw [eulerOuterGo]
    by_cases hle : m + 1 ≤ L
    · rw [if_pos hle]
      have hnext := ih (m + 1) _ (euler_step L m s hinv hm hle) (by omega) (by omega)
      have hmax : max (m + 1) L = max m L := by omega
      rw [hmax] at hnext
      exact hnext
    · rw [if_neg hle]
      have hmax : max m L = m := by omega
      rw [hmax]
      exact hinv

theorem euler_mk_spec (L : ℤ) (s : EulerSieveT)
    (h : EulerSieveT.mk? L = Except.ok s) :
    s.num_limit = L.toNat ∧ 0 ≤ L ∧ L.toNat < 2 ^ 32 ∧
    s.primes = primesUpTo L.toNat ∧
    ∀ k, s.mpf k = if 2 ≤ k ∧ k ≤ L.toNat then Nat.minFac k else 0 := by
  rw [EulerSieveT.mk?] at h
  by_cases hneg : L < 0
  · rw [if_pos hneg] at h
    exact Except.noConfusion h
  · rw [if_neg hneg] at h
    by_cases hof : 64 < 2 * bit_width L.toNat
    · rw [if_pos hof] at h
      exact Except.noConfusion h
    · rw [if_neg hof] at h
      have hs : EulerSieveT.mk L.toNat
          (eulerOuterGo L.toNat (L.toNat + 1) 2 (fun _ => 0, [])).1
          (eulerOuterGo L.toNat (L.toNat + 1) 2 (fun _ => 0, [])).2 = s :=
        Except.ok.inj h
      have hbase : EulerInv L.toNat 1 (fun _ => 0, []) := by
        constructor
        · exact (primesUpTo_zero_one.2).symm
        · intro k
          rw [if_neg ?_]
          rintro ⟨h2, hkL, (⟨hp, hk1⟩ | ⟨hnp, hck⟩)⟩
          · have := hp.two_le
            omega
          · have := two_le_cofactor k h2 hnp
            omega
      have houter := eulerOuterGo_spec L.toNat (L.toNat + 1) 1 (fun _ => 0, [])
        hbase (le_refl 1) (by omega)
      obtain ⟨hP, hM⟩ := houter
      subst hs
      refine ⟨rfl, by omega, ?_, ?_, ?_⟩
      · have := bit_width_le_iff L.toNat 32
        omega
      · show (eulerOuterGo L.toNat (L.toNat + 1) (1 + 1) (fun _ => 0, [])).2 =
          primesUpTo L.toNat
        rw [hP]
        rcases Nat.eq_zero_or_pos L.toNat with h0 | h0
        · rw [h0]
          have hmax : max 1 0 = 1 := by omega
          rw [hmax, primesUpTo_zero_one.1, primesUpTo_zero_one.2]
        · have hmax : max 1 L.toNat = L.toNat := by omega
          rw [hmax]
      · intro k
        show (eulerOuterGo L.toNat (L.toNat + 1) (1 + 1) (fun _ => 0, [])).1 k = _
        rw [hM k]
        by_cases hk : 2 ≤ k ∧ k ≤ L.toNat
        · rw [if_pos hk, if_pos ?_]
          obtain ⟨h2, hkL⟩ := hk
          refine ⟨h2, hkL, ?_⟩
          by_cases hp : Nat.Prime k
          · exact Or.inl ⟨hp, by omega⟩
          · refine Or.inr ⟨hp, ?_⟩
            have h1 := cofactor_le_half k h2
            have h2' : k / 2 < k := Nat.div_lt_self (by omega) (by omega)
            omega
        · rw [if_neg hk, if_neg ?_]
          rintro ⟨h2, hkL, _⟩
          exact hk ⟨h2, hkL⟩

/-- C1: on every successfully constructed `EulerSieve(L)` and every `n`
with `2 ≤ n ≤ L`, the stored entry (and hence the value the
`min_prime_factor` query returns) is the least prime factor of `n`: it is
prime, divides `n`, and no smaller prime divides `n`. -/
theorem euler_min_prime_factor_least (L : ℤ) (s : EulerSieveT)
    (hs : EulerSieveT.mk? L = Except.ok s) (n : ℕ) (h2 : 2 ≤ n)
    (hle : n ≤ s.num_limit) :
    s.mpf n = Nat.minFac n ∧
    s.min_prime_factor (n : ℤ) = Except.ok (Nat.minFac n) ∧
    (Nat.minFac n).Prime ∧ Nat.minFac n ∣ n ∧
    (∀ p : ℕ, p.Prime → p ∣ n → Nat.minFac n ≤ p) := by
  obtain ⟨hnum, h0, h32, hP, hM⟩ := euler_mk_spec L s hs
  rw [hnum] at hle
  have hmpf : s.mpf n = Nat.minFac n := by
    rw [hM n, if_pos ⟨h2, hle⟩]
  refine ⟨hmpf, ?_, Nat.minFac_prime (by omega), Nat.minFac_dvd n, ?_⟩
  · rw [EulerSieveT.min_prime_factor]
    simp only [unsigned_abs, Int.natAbs_ofNat]
    rw [if_neg (by omega), if_neg (by rw [hnum]; omega), hmpf]
  · intro p hp hdvd
    exact Nat.minFac_le_of_dvd hp.two_le hdvd

/-- C1 witness: on `EulerSieve(10)` at `n = 9` the stored factor is
`minFac 9 = 3`, prime, dividing 9, minimal. -/
theorem euler_min_prime_factor_least_witness :
    euler10.mpf 9 = Nat.minFac 9 ∧
    euler10.min_prime_factor (9 : ℤ) = Except.ok (Nat.minFac 9) ∧
    (Nat.minFac 9).Prime ∧ Nat.minFac 9 ∣ 9 ∧
    (∀ p : ℕ, p.Prime → p ∣ 9 → Nat.minFac 9 ≤ p) :=
  euler_min_prime_factor_least 10 euler10 (by rfl) 9 (by decide) (by decide)

/-- C6: on every successfully constructed `EulerSieve(L)`, `primes()` is
strictly ascending and contains exactly the `n ≤ L` that are prime,
equivalently exactly the `n ≤ L` whose `min_prime_factor` query returns
`n` itself. -/
theorem euler_primes_ascending_eq (L : ℤ) (s : EulerSieveT)
    (hs : EulerSieveT.mk? L = Except.ok s) :
    List.Pairwise (· < ·) s.primes ∧
    (∀ p : ℕ, p ∈ s.primes ↔ p ≤ s.num_limit ∧ p.Prime) ∧
    (∀ p : ℕ, p ∈ s.primes ↔
      p ≤ s.num_limit ∧ s.min_prime_factor (p : ℤ) = Except.ok p) := by
  obtain ⟨hnum, h0, h32, hP, hM⟩ := euler_mk_spec L s hs
  refine ⟨by rw [hP]; exact primesUpTo_pairwise _, ?_, ?_⟩
  · intro p
    rw [hP, mem_primesUpTo, hnum]
  · intro p
    rw [hP, mem_primesUpTo, hnum]
    constructor
    · rintro ⟨hple, hpp⟩
      have h2 := hpp.two_le
      refine ⟨hple, ?_⟩
      rw [EulerSieveT.min_prime_factor]
      simp only [unsigned_abs, Int.natAbs_ofNat]
      rw [if_neg (by omega), if_neg (by rw [hnum]; omega), hM p,
        if_pos ⟨h2, hple⟩, (Nat.prime_def_minFac.mp hpp).2]
    · rintro ⟨hple, hq⟩
      refine ⟨hple, ?_⟩
      rw [EulerSieveT.min_prime_factor] at hq
      simp only [unsigned_abs, Int.natAbs_ofNat] at hq
      by_cases hp1 : p ≤ 1
      · rw [if_pos hp1] at hq
        exact absurd hq (by simp)
      · rw [if_neg hp1] at hq
        by_cases hpgt : s.num_limit < p
        · rw [if_pos hpgt] at hq
          exact absurd hq (by simp)
        · rw [if_neg hpgt] at hq
          have hval : s.mpf p = p := by
            injection hq
          rw [hM p, if_pos ⟨by omega, hple⟩] at hval
          exact Nat.prime_def_minFac.mpr ⟨by omega, hval⟩

/-- C6 witness: the theorem applied to `EulerSieve(10)` at `p = 7` and
`p = 9`. -/
theorem euler_primes_ascending_eq_witness :
    List.Pairwise (· < ·) euler10.primes ∧
    (7 ∈ euler10.primes ↔ 7 ≤ euler10.num_limit ∧ Nat.Prime 7) ∧
    (9 ∈ euler10.primes ↔
      9 ≤ euler10.num_limit ∧ euler10.min_prime_factor (9 : ℤ) = Except.ok 9) :=
  ⟨(euler_primes_ascending_eq 10 euler10 (by rfl)).1,
   (euler_primes_ascending_eq 10 euler10 (by rfl)).2.1 7,
   (euler_primes_ascending_eq 10 euler10 (by rfl)).2.2 9⟩

/-- C9: whenever both sieves are successfully constructed at limit `L`,
the two primality sources agree on every `n` with `2 ≤ n ≤ L`:
`Sieve(L).is_prime(n)` is true exactly when
`EulerSieve(L).min_prime_factor(n)` returns `n` itself. -/
theorem sieve_euler_agree (L : ℤ) (sv : SieveT) (es : EulerSieveT)
    (h0 : 0 ≤ L) (hsv : SieveT.mk? L.toNat = some sv)
    (hes : EulerSieveT.mk? L = Except.ok es) (n : ℕ) (h2 : 2 ≤ n)
    (hle : n ≤ L.toNat) :
    (sv.is_prime (n : ℤ) = Except.ok true ↔
      es.min_prime_factor (n : ℤ) = Except.ok n) := by
  obtain ⟨hnum, _, h32, hP, hM⟩ := euler_mk_spec L es hes
  have hpow : (2 : ℕ) ^ 32 ≤ 2 ^ 64 - 2 ^ 33 := by norm_num
  have hexact : L.toNat ≤ 2 ^ 64 - 2 ^ 33 := by omega
  have hC3 := (sieve_is_prime_correct L.toNat sv hexact hsv (n : ℤ)).2.2.2
    (by exact_mod_cast h2) (by exact_mod_cast hle)
  have htn : ((n : ℤ)).toNat = n := by simp
  obtain ⟨hmpf, hqr, _, _, _⟩ := euler_min_prime_factor_least L es hes n h2
    (by rw [hnum]; omega)
  constructor
  · intro hok
    have hprime : Nat.Prime n := by
      have := hC3.2.mp hok
      rwa [htn] at this
    rw [hqr, (Nat.prime_def_minFac.mp hprime).2]
  · intro hok
    rw [hqr] at hok
    have hval : Nat.minFac n = n := by
      injection hok
    have hprime : Nat.Prime n := Nat.prime_def_minFac.mpr ⟨h2, hval⟩
    apply hC3.2.mpr
    rwa [htn]

/-- C9 witness: the two sieves at limit 10 agree at `n = 7`. -/
theorem sieve_euler_agree_witness :
    sieve10.is_prime ((7 : ℕ) : ℤ) = Except.ok true ↔
      euler10.min_prime_factor ((7 : ℕ) : ℤ) = Except.ok 7 :=
  sieve_euler_agree 10 sieve10 euler10 (by decide) (by rfl) (by rfl) 7
    (by decide) (by decide)

/-! ### The coprime-pair generator: children arithmetic (C2, C10) -/

theorem U64_eq : U64 = 2 ^ 64 := by norm_num [U64]

theorem childA_eval (x y : ℕ) (hy : y ≤ 2 * x) (hx : 2 * x < U64) :
    childA x y = 2 * x - y := by
  have h2x : 2 * x % U64 = 2 * x := Nat.mod_eq_of_lt hx
  have hym : y % U64 = y := Nat.mod_eq_of_lt (by omega)
  rw [childA, h2x, hym]
  have h1 : 2 * x + (U64 - y) = 2 * x - y + U64 := by omega
  rw [h1, Nat.add_mod_right]
  exact Nat.mod_eq_of_lt (by omega)

theorem childB_eval (x y : ℕ) (h : 2 * x + y < U64) : childB x y = 2 * x + y :=
  Nat.mod_eq_of_lt h

theorem childC_eval (x y : ℕ) (h : x + 2 * y < U64) : childC x y = x + 2 * y :=
  Nat.mod_eq_of_lt h

theorem gcd_twomul_sub (x y : ℕ) (h : y ≤ 2 * x) :
    Nat.gcd (2 * x - y) x = Nat.gcd x y := by
  apply Nat.dvd_antisymm
  · apply Nat.dvd_gcd
    · exact Nat.gcd_dvd_right _ _
    · have h1 : Nat.gcd (2 * x - y) x ∣ 2 * x := (Nat.gcd_dvd_right _ _).mul_left 2
      have h2 : Nat.gcd (2 * x - y) x ∣ 2 * x - y := Nat.gcd_dvd_left _ _
      have h4 : Nat.gcd (2 * x - y) x ∣ 2 * x - (2 * x - y) := Nat.dvd_sub' h1 h2
      have h3 : 2 * x - (2 * x - y) = y := by omega
      rw [h3] at h4
      exact h4
  · apply Nat.dvd_gcd
    · exact Nat.dvd_sub' ((Nat.gcd_dvd_left x y).mul_left 2) (Nat.gcd_dvd_right x y)
    · exact Nat.gcd_dvd_left x y

theorem gcd_twomul_add (x y : ℕ) : Nat.gcd (2 * x + y) x = Nat.gcd x y := by
  apply Nat.dvd_antisymm
  · apply Nat.dvd_gcd
    · exact Nat.gcd_dvd_right _ _
    · have h1 : Nat.gcd (2 * x + y) x ∣ 2 * x := (Nat.gcd_dvd_right _ _).mul_left 2
      have h2 : Nat.gcd (2 * x + y) x ∣ 2 * x + y := Nat.gcd_dvd_left _ _
      have h4 : Nat.gcd (2 * x + y) x ∣ 2 * x + y - 2 * x := Nat.dvd_sub' h2 h1
      have h3 : 2 * x + y - 2 * x = y := by omega
      rw [h3] at h4
      exact h4
  · apply Nat.dvd_gcd
    · exact Dvd.dvd.add ((Nat.gcd_dvd_left x y).mul_left 2) (Nat.gcd_dvd_right x y)
    · exact Nat.gcd_dvd_left x y

theorem gcd_add_twomul (x y : ℕ) : Nat.gcd (x + 2 * y) y = Nat.gcd x y := by
  apply Nat.dvd_antisymm
  · apply Nat.dvd_gcd
    · have h1 : Nat.gcd (x + 2 * y) y ∣ 2 * y := (Nat.gcd_dvd_right _ _).mul_left 2
      have h2 : Nat.gcd (x + 2 * y) y ∣ x + 2 * y := Nat.gcd_dvd_left _ _
      have h4 : Nat.gcd (x + 2 * y) y ∣ x + 2 * y - 2 * y := Nat.dvd_sub' h2 h1
      have h3 : x + 2 * y - 2 * y = x := by omega
      rw [h3] at h4
      exact h4
    · exact Nat.gcd_dvd_right _ _
  · apply Nat.dvd_gcd
    · exact Dvd.dvd.add (Nat.gcd_dvd_left x y) ((Nat.gcd_dvd_right x y).mul_left 2)
    · exact Nat.gcd_dvd_right x y

theorem mem_addPair (L : ℕ) (ps : List (ℕ × ℕ)) (x y : ℕ) (q : ℕ × ℕ) :
    q ∈ addPair L ps x y ↔ q ∈ ps ∨ (x ≤ L ∧ q = (x, y)) := by
  rw [addPair]
  split
  · rename_i h
    constructor
    · intro hq
      rcases List.mem_append.mp hq with h1 | h1
      · exact Or.inl h1
      · exact Or.inr ⟨h, List.mem_singleton.mp h1⟩
    · rintro (h1 | ⟨_, rfl⟩)
      · exact List.mem_append.mpr (Or.inl h1)
      · exact List.mem_append.mpr (Or.inr (List.mem_singleton.mpr rfl))
  · rename_i h
    constructor
    · exact Or.inl
    · rintro (h1 | ⟨hxL, _⟩)
      · exact h1
      · exact absurd hxL h

theorem addPair_append (L : ℕ) (ps qs : List (ℕ × ℕ)) (x y : ℕ) :
    addPair L (ps ++ qs) x y = ps ++ addPair L qs x y := by
  rw [addPair, addPair]
  split
  · rw [List.append_assoc]
  · rfl

theorem stepChildren_eq (L : ℕ) (ps : List (ℕ × ℕ)) (p : ℕ × ℕ) :
    stepChildren L ps p = ps ++ childrenL L p := by
  rw [childrenL, stepChildren, stepChildren]
  conv_lhs => rw [← List.append_nil ps]
  rw [addPair_append, addPair_append, addPair_append]

theorem mem_childrenL (L : ℕ) (p q : ℕ × ℕ) :
    q ∈ childrenL L p ↔
      (childA p.1 p.2 ≤ L ∧ q = (childA p.1 p.2, p.1)) ∨
      (childB p.1 p.2 ≤ L ∧ q = (childB p.1 p.2, p.1)) ∨
      (childC p.1 p.2 ≤ L ∧ q = (childC p.1 p.2, p.2)) := by
  rw [childrenL, stepChildren, mem_addPair, mem_addPair, mem_addPair]
  simp only [List.not_mem_nil, false_or]
  tauto

theorem childrenL_length (L : ℕ) (p : ℕ × ℕ) : (childrenL L p).length ≤ 3 := by
  rw [childrenL, stepChildren, addPair, addPair, addPair]
  split_ifs <;> simp

theorem coprimeReach_pairok (L : ℕ) (hW : 3 * L < U64) (p : ℕ × ℕ)
    (h : CoprimeReach L p) : PairOK L p := by
  induction h with
  | seed2 h => exact ⟨by omega, by omega, h, by norm_num⟩
  | seed3 h => exact ⟨by omega, by omega, h, by norm_num⟩
  | stepA x y hr hle ih =>
    simp only [PairOK] at ih ⊢
    obtain ⟨h1, h2, h3, hg⟩ := ih
    have hA : childA x y = 2 * x - y := childA_eval x y (by omega) (by omega)
    refine ⟨by omega, by rw [hA]; omega, hle, ?_⟩
    rw [hA, gcd_twomul_sub x y (by omega)]
    exact hg
  | stepB x y hr hle ih =>
    simp only [PairOK] at ih ⊢
    obtain ⟨h1, h2, h3, hg⟩ := ih
    have hB : childB x y = 2 * x + y := childB_eval x y (by omega)
    refine ⟨by omega, by rw [hB]; omega, hle, ?_⟩
    rw [hB, gcd_twomul_add x y]
    exact hg
  | stepC x y hr hle ih =>
    simp only [PairOK] at ih ⊢
    obtain ⟨h1, h2, h3, hg⟩ := ih
    have hC : childC x y = x + 2 * y := childC_eval x y (by omega)
    refine ⟨by omega, by rw [hC]; omega, hle, ?_⟩
    rw [hC, gcd_add_twomul x y]
    exact hg

theorem childrenL_sound (L : ℕ) (hW : 3 * L < U64) (p : ℕ × ℕ)
    (hok : PairOK L p) (c : ℕ × ℕ) (hc : c ∈ childrenL L p) :
    PairOK L c ∧ p.1 < c.1 := by
  simp only [PairOK] at hok
  obtain ⟨h1, h2, h3, hg⟩ := hok
  have hA : childA p.1 p.2 = 2 * p.1 - p.2 := childA_eval _ _ (by omega) (by omega)
  have hB : childB p.1 p.2 = 2 * p.1 + p.2 := childB_eval _ _ (by omega)
  have hC : childC p.1 p.2 = p.1 + 2 * p.2 := childC_eval _ _ (by omega)
  rcases (mem_childrenL L p c).mp hc with ⟨hle, rfl⟩ | ⟨hle, rfl⟩ | ⟨hle, rfl⟩
  · simp only [PairOK]
    refine ⟨⟨by omega, by rw [hA]; omega, hle, ?_⟩, by rw [hA]; omega⟩
    rw [hA, gcd_twomul_sub p.1 p.2 (by omega)]
    exact hg
  · simp only [PairOK]
    refine ⟨⟨by omega, by rw [hB]; omega, hle, ?_⟩, by rw [hB]; omega⟩
    rw [hB, gcd_twomul_add p.1 p.2]
    exact hg
  · simp only [PairOK]
    refine ⟨⟨by omega, by rw [hC]; omega, hle, ?_⟩, by rw [hC]; omega⟩
    rw [hC, gcd_add_twomul p.1 p.2]
    exact hg

theorem childrenL_reach (L : ℕ) (p : ℕ × ℕ) (hr : CoprimeReach L p)
    (c : ℕ × ℕ) (hc : c ∈ childrenL L p) : CoprimeReach L c := by
  rcases (mem_childrenL L p c).mp hc with ⟨hle, rfl⟩ | ⟨hle, rfl⟩ | ⟨hle, rfl⟩
  · exact CoprimeReach.stepA p.1 p.2 hr hle
  · exact CoprimeReach.stepB p.1 p.2 hr hle
  · exact CoprimeReach.stepC p.1 p.2 hr hle

theorem childrenL_nodup (L : ℕ) (hW : 3 * L < U64) (p : ℕ × ℕ)
    (hok : PairOK L p) : (childrenL L p).Nodup := by
  simp only [PairOK] at hok
  obtain ⟨h1, h2, h3, _⟩ := hok
  have hA : childA p.1 p.2 = 2 * p.1 - p.2 := childA_eval _ _ (by omega) (by omega)
  have hB : childB p.1 p.2 = 2 * p.1 + p.2 := childB_eval _ _ (by omega)
  have hC : childC p.1 p.2 = p.1 + 2 * p.2 := childC_eval _ _ (by omega)
  rw [childrenL, stepChildren, addPair, addPair, addPair]
  split_ifs <;>
    simp_all [List.nodup_cons, Prod.ext_iff] <;>
    omega

theorem childrenL_parent_unique (L : ℕ) (hW : 3 * L < U64) (p q : ℕ × ℕ)
    (hp : PairOK L p) (hq : PairOK L q) (c : ℕ × ℕ)
    (hcp : c ∈ childrenL L p) (hcq : c ∈ childrenL L q) : p = q := by
  simp only [PairOK] at hp hq
  obtain ⟨h1, h2, h3, _⟩ := hp
  obtain ⟨h1', h2', h3', _⟩ := hq
  have hA : childA p.1 p.2 = 2 * p.1 - p.2 := childA_eval _ _ (by omega) (by omega)
  have hB : childB p.1 p.2 = 2 * p.1 + p.2 := childB_eval _ _ (by omega)
  have hC : childC p.1 p.2 = p.1 + 2 * p.2 := childC_eval _ _ (by omega)
  have hA' : childA q.1 q.2 = 2 * q.1 - q.2 := childA_eval _ _ (by omega) (by omega)
  have hB' : childB q.1 q.2 = 2 * q.1 + q.2 := childB_eval _ _ (by omega)
  have hC' : childC q.1 q.2 = q.1 + 2 * q.2 := childC_eval _ _ (by omega)
  rcases (mem_childrenL L p c).mp hcp with ⟨hle, hce⟩ | ⟨hle, hce⟩ | ⟨hle, hce⟩ <;>
    rcases (mem_childrenL L q c).mp hcq with ⟨hle', hce'⟩ | ⟨hle', hce'⟩ | ⟨hle', hce'⟩ <;>
    · rw [hce] at hce'
      rw [Prod.mk.injEq] at hce'
      obtain ⟨e1, e2⟩ := hce'
      simp only [hA, hB, hC, hA', hB', hC'] at e1
      refine Prod.ext ?_ ?_ <;> omega

theorem seed_not_in_childrenL (L : ℕ) (hW : 3 * L < U64) (p : ℕ × ℕ)
    (hok : PairOK L p) : (2, 1) ∉ childrenL L p ∧ (3, 1) ∉ childrenL L p := by
  simp only [PairOK] at hok
  obtain ⟨h1, h2, h3, _⟩ := hok
  have hA : childA p.1 p.2 = 2 * p.1 - p.2 := childA_eval _ _ (by omega) (by omega)
  have hB : childB p.1 p.2 = 2 * p.1 + p.2 := childB_eval _ _ (by omega)
  have hC : childC p.1 p.2 = p.1 + 2 * p.2 := childC_eval _ _ (by omega)
  constructor <;>
  · intro hc
    rcases (mem_childrenL L p _).mp hc with ⟨_, he⟩ | ⟨_, he⟩ | ⟨_, he⟩ <;>
    · rw [Prod.mk.injEq] at he
      obtain ⟨e1, e2⟩ := he
      simp only [hA, hB, hC] at e1
      omega

/-! ### The coprime-pair work-list loop: invariant and termination -/

theorem reach_mem (L : ℕ) (psF : List (ℕ × ℕ))
    (hseed2 : 2 ≤ L → (2, 1) ∈ psF) (hseed3 : 3 ≤ L → (3, 1) ∈ psF)
    (hclosed : ∀ p ∈ psF, ∀ c ∈ childrenL L p, c ∈ psF) :
    ∀ q, CoprimeReach L q → q ∈ psF := by
  intro q h
  induction h with
  | seed2 h => exact hseed2 h
  | seed3 h => exact hseed3 h
  | stepA x y hr hle ih =>
    exact hclosed (x, y) ih _ ((mem_childrenL L (x, y) _).mpr (Or.inl ⟨hle, rfl⟩))
  | stepB x y hr hle ih =>
    exact hclosed (x, y) ih _
      ((mem_childrenL L (x, y) _).mpr (Or.inr (Or.inl ⟨hle, rfl⟩)))
  | stepC x y hr hle ih =>
    exact hclosed (x, y) ih _
      ((mem_childrenL L (x, y) _).mpr (Or.inr (Or.inr ⟨hle, rfl⟩)))

theorem coprimeInv_step (L : ℕ) (hW : 3 * L < U64) (ps : List (ℕ × ℕ)) (v : ℕ)
    (p : ℕ × ℕ) (hinv : CoprimeInv L ps v) (hv : ps[v]? = some p) :
    CoprimeInv L (ps ++ childrenL L p) (v + 1) := by
  obtain ⟨hlen, hnodup, hok, hmem⟩ := hinv
  obtain ⟨hvlt, hget⟩ := List.getElem?_eq_some_iff.mp hv
  have hpmem : p ∈ ps := hget ▸ List.getElem_mem hvlt
  obtain ⟨hpok, hpreach⟩ := hok p hpmem
  have htake : (ps ++ childrenL L p).take (v + 1) = ps.take v ++ [p] := by
    rw [List.take_append_of_le_length (by omega), List.take_succ, hv]
    rfl
  have hfresh : ∀ c ∈ childrenL L p, c ∉ ps := by
    intro c hc hcps
    rcases (hmem c).mp hcps with ⟨hseed, _⟩ | ⟨p', hp'take, hc'⟩
    · rcases hseed with rfl | rfl
      · exact (seed_not_in_childrenL L hW p hpok).1 hc
      · exact (seed_not_in_childrenL L hW p hpok).2 hc
    · have hp'mem : p' ∈ ps := List.mem_of_mem_take hp'take
      have hpeq : p = p' :=
        childrenL_parent_unique L hW p p' hpok (hok p' hp'mem).1 c hc hc'
      subst hpeq
      have h2 : ps.drop v = p :: ps.drop (v + 1) := by
        rw [List.drop_eq_getElem_cons hvlt, hget]
      have hnd : (ps.take v ++ ps.drop v).Nodup := by
        rw [List.take_append_drop]
        exact hnodup
      have hdisj := List.disjoint_of_nodup_append hnd
      exact hdisj hp'take (by rw [h2]; exact List.mem_cons_self p _)
  refine ⟨?_, ?_, ?_, ?_⟩
  · rw [List.length_append]
    omega
  · rw [List.nodup_append]
    refine ⟨hnodup, childrenL_nodup L hW p hpok, ?_⟩
    intro a ha hb
    exact hfresh a hb ha
  · intro c hc
    rcases List.mem_append.mp hc with h | h
    · exact hok c h
    · exact ⟨(childrenL_sound L hW p hpok c h).1, childrenL_reach L p hpreach c h⟩
  · intro q
    rw [List.mem_append, hmem q, htake]
    constructor
    · rintro ((hseed | ⟨p', hp', hq'⟩) | hch)
      · exact Or.inl hseed
      · exact Or.inr ⟨p', List.mem_append.mpr (Or.inl hp'), hq'⟩
      · exact Or.inr ⟨p, List.mem_append.mpr (Or.inr (by simp)), hch⟩
    · rintro (hseed | ⟨p', hp', hq'⟩)
      · exact Or.inl (Or.inl hseed)
      · rcases List.mem_append.mp hp' with h | h
        · exact Or.inl (Or.inr ⟨p', h, hq'⟩)
        · have hpp : p' = p := List.mem_singleton.mp h
          subst hpp
          exact Or.inr hq'

theorem potential_step (L : ℕ) (hW : 3 * L < U64) (ps : List (ℕ × ℕ)) (v : ℕ)
    (p : ℕ × ℕ) (hok : PairOK L p) (hv : ps[v]? = some p) :
    potential L (ps ++ childrenL L p) (v + 1) < potential L ps v := by
  obtain ⟨hvlt, hget⟩ := List.getElem?_eq_some_iff.mp hv
  have hp3 : p.1 ≤ L := hok.2.2.1
  have hdrop : ps.drop v = p :: ps.drop (v + 1) := by
    rw [List.drop_eq_getElem_cons hvlt, hget]
  have hdrop2 : (ps ++ childrenL L p).drop (v + 1) =
      ps.drop (v + 1) ++ childrenL L p :=
    List.drop_append_of_le_length (by omega)
  rw [potential, potential, hdrop, hdrop2, List.map_cons, List.sum_cons,
    List.map_append, List.sum_append]
  have hchild : ∀ w ∈ (childrenL L p).map (pairWeight L), w ≤ 4 ^ (L - p.1) := by
    intro w hw
    obtain ⟨c, hc, rfl⟩ := List.mem_map.mp hw
    obtain ⟨⟨hc1, hc2, hc3, _⟩, hlt⟩ := childrenL_sound L hW p hok c hc
    rw [pairWeight]
    apply Nat.pow_le_pow_right (by omega)
    omega
  have hsum := List.sum_le_card_nsmul ((childrenL L p).map (pairWeight L))
    (4 ^ (L - p.1)) hchild
  have hlen : ((childrenL L p).map (pairWeight L)).length ≤ 3 := by
    rw [List.length_map]
    exact childrenL_length L p
  rw [smul_eq_mul] at hsum
  have hsum2 : ((childrenL L p).map (pairWeight L)).sum ≤ 3 * 4 ^ (L - p.1) := by
    have := Nat.mul_le_mul_right (4 ^ (L - p.1)) hlen
    omega
  have hwp : pairWeight L p = 4 * 4 ^ (L - p.1) := by
    rw [pairWeight]
    have h1 : L + 1 - p.1 = (L - p.1) + 1 := by omega
    rw [h1, pow_succ]
    ring
  have h4 : 0 < 4 ^ (L - p.1) := pow_pos (by omega) _
  omega

theorem coprimeRun_inv_some (L : ℕ) (hW : 3 * L < U64) :
    ∀ (fuel : ℕ) (ps : List (ℕ × ℕ)) (v : ℕ), CoprimeInv L ps v →
      potential L ps v < fuel →
      ∃ psF, coprimeRun L fuel ps v = some psF ∧
        CoprimeInv L psF psF.length := by
  intro fuel
  induction fuel with
  | zero =>
    intro ps v _ hpot
    omega
  | succ fuel ih =>
    intro ps v hinv hpot
    cases hv : ps[v]? with
    | none =>
      refine ⟨ps, ?_, ?_⟩
      · rw [coprimeRun, hv]
      · have hlen : ps.length ≤ v := List.getElem?_eq_none_iff.mp hv
        have hveq : v = ps.length := by
          have := hinv.1
          omega
        rw [← hveq]
        exact hinv
    | some p =>
      have hpmem : p ∈ ps := by
        obtain ⟨h', he⟩ := List.getElem?_eq_some_iff.mp hv
        exact he ▸ List.getElem_mem h'
      have hstep := coprimeInv_step L hW ps v p hinv hv
      have hpot2 : potential L (ps ++ childrenL L p) (v + 1) < fuel := by
        have := potential_step L hW ps v p (hinv.2.2.1 p hpmem).1 hv
        omega
      obtain ⟨psF, hrun, hinvF⟩ := ih (ps ++ childrenL L p) (v + 1) hstep hpot2
      refine ⟨psF, ?_, hinvF⟩
      rw [coprimeRun, hv]
      show coprimeRun L fuel (stepChildren L ps p) (v + 1) = some psF
      rw [stepChildren_eq]
      exact hrun

theorem pairok_reach (L : ℕ) (hW : 3 * L < U64) :
    ∀ x y : ℕ, PairOK L (x, y) → CoprimeReach L (x, y) := by
  intro x
  induction x using Nat.strong_induction_on with
  | _ x ih =>
    intro y hok
    simp only [PairOK] at hok
    obtain ⟨h1, h2, h3, hg⟩ := hok
    rcases show x = 2 * y ∨ x = 3 * y ∨ (y < x ∧ x < 2 * y) ∨
        (2 * y < x ∧ x < 3 * y) ∨ 3 * y < x by omega with
      hc | hc | ⟨hc1, hc2⟩ | ⟨hc1, hc2⟩ | hc
    · have hgy : Nat.gcd x y = y := by
        rw [hc]
        exact Nat.gcd_eq_right (dvd_mul_left y 2)
      have hy1 : y = 1 := by omega
      have hx2 : x = 2 := by omega
      subst hy1
      subst hx2
      exact CoprimeReach.seed2 (by omega)
    · have hgy : Nat.gcd x y = y := by
        rw [hc]
        exact Nat.gcd_eq_right (dvd_mul_left y 3)
      have hy1 : y = 1 := by omega
      have hx3 : x = 3 := by omega
      subst hy1
      subst hx3
      exact CoprimeReach.seed3 (by omega)
    · -- parent (y, 2 * y - x) via transform A
      have hpok : PairOK L (y, 2 * y - x) := by
        simp only [PairOK]
        refine ⟨by omega, by omega, by omega, ?_⟩
        have hgg : Nat.gcd (2 * y - x) y = Nat.gcd y x := gcd_twomul_sub y x (by omega)
        rw [Nat.gcd_comm y (2 * y - x), hgg, Nat.gcd_comm y x]
        exact hg
      have hpr := ih y (by omega) (2 * y - x) hpok
      have hAe : childA y (2 * y - x) = x := by
        rw [childA_eval y (2 * y - x) (by omega) (by omega)]
        omega
      have := CoprimeReach.stepA y (2 * y - x) hpr (by rw [hAe]; exact h3)
      rwa [hAe] at this
    · -- parent (y, x - 2 * y) via transform B
      have hpok : PairOK L (y, x - 2 * y) := by
        simp only [PairOK]
        refine ⟨by omega, by omega, by omega, ?_⟩
        have hgg : Nat.gcd (2 * y + (x - 2 * y)) y = Nat.gcd y (x - 2 * y) :=
          gcd_twomul_add y (x - 2 * y)
        have hxe : 2 * y + (x - 2 * y) = x := by omega
        rw [hxe] at hgg
        rw [← hgg]
        exact hg
      have hpr := ih y (by omega) (x - 2 * y) hpok
      have hBe : childB y (x - 2 * y) = x := by
        rw [childB_eval y (x - 2 * y) (by omega)]
        omega
      have := CoprimeReach.stepB y (x - 2 * y) hpr (by rw [hBe]; exact h3)
      rwa [hBe] at this
    · -- parent (x - 2 * y, y) via transform C
      have hpok : PairOK L (x - 2 * y, y) := by
        simp only [PairOK]
        refine ⟨by omega, by omega, by omega, ?_⟩
        have hgg : Nat.gcd ((x - 2 * y) + 2 * y) y = Nat.gcd (x - 2 * y) y :=
          gcd_add_twomul (x - 2 * y) y
        have hxe : (x - 2 * y) + 2 * y = x := by omega
        rw [hxe] at hgg
        rw [← hgg]
        exact hg
      have hpr := ih (x - 2 * y) (by omega) y hpok
      have hCe : childC (x - 2 * y) y = x := by
        rw [childC_eval (x - 2 * y) y (by omega)]
        omega
      have := CoprimeReach.stepC (x - 2 * y) y hpr (by rw [hCe]; exact h3)
      rwa [hCe] at this

theorem coprime_pairs_some_char (L : ℤ) (h0 : 0 < L) (hW3 : 3 * L < 2 ^ 64) :
    ∃ ps, coprime_pairs L = some ps ∧ ps.Nodup ∧
      (∀ x y : ℕ, ((x, y) ∈ ps ↔ y ≤ x ∧ (x : ℤ) ≤ L ∧ Nat.gcd x y = 1)) := by
  have hLn1 : 1 ≤ L.toNat := by omega
  have hW : 3 * L.toNat < U64 := by
    rw [U64_eq]
    omega
  have hmem0 : ∀ q, q ∈ addPair L.toNat (addPair L.toNat [] 2 1) 3 1 ↔
      (q = (2, 1) ∧ 2 ≤ L.toNat) ∨ (q = (3, 1) ∧ 3 ≤ L.toNat) := by
    intro q
    rw [mem_addPair, mem_addPair]
    simp only [List.not_mem_nil, false_or]
    tauto
  have hinv0 : CoprimeInv L.toNat (addPair L.toNat (addPair L.toNat [] 2 1) 3 1) 0 := by
    refine ⟨by omega, ?_, ?_, ?_⟩
    · rw [addPair, addPair]
      split_ifs <;> simp
    · intro p hp
      rcases (hmem0 p).mp hp with ⟨rfl, hs⟩ | ⟨rfl, hs⟩
      · exact ⟨⟨by omega, by omega, hs, by norm_num⟩, CoprimeReach.seed2 hs⟩
      · exact ⟨⟨by omega, by omega, hs, by norm_num⟩, CoprimeReach.seed3 hs⟩
    · intro q
      rw [hmem0 q]
      simp only [List.take_zero, List.not_mem_nil, false_and, exists_false,
        or_false, exists_and_left]
      constructor
      · rintro (⟨rfl, hs⟩ | ⟨rfl, hs⟩)
        · exact ⟨Or.inl rfl, hs⟩
        · exact ⟨Or.inr rfl, hs⟩
      · rintro ⟨hseed, hle⟩
        rcases hseed with rfl | rfl
        · exact Or.inl ⟨rfl, hle⟩
        · exact Or.inr ⟨rfl, hle⟩
  have hpot0 : potential L.toNat (addPair L.toNat (addPair L.toNat [] 2 1) 3 1) 0 <
      coprimeFuel L.toNat := by
    rw [coprimeFuel]
    have hb : ∀ w ∈ ((addPair L.toNat (addPair L.toNat [] 2 1) 3 1).drop 0).map
        (pairWeight L.toNat), w ≤ 4 ^ (L.toNat - 1) := by
      intro w hw
      rw [List.drop_zero] at hw
      obtain ⟨c, hc, rfl⟩ := List.mem_map.mp hw
      rcases (hmem0 c).mp hc with ⟨rfl, hs⟩ | ⟨rfl, hs⟩
      · show (4 : ℕ) ^ (L.toNat + 1 - 2) ≤ 4 ^ (L.toNat - 1)
        apply Nat.pow_le_pow_right (by omega)
        omega
      · show (4 : ℕ) ^ (L.toNat + 1 - 3) ≤ 4 ^ (L.toNat - 1)
        apply Nat.pow_le_pow_right (by omega)
        omega
    have hsum := List.sum_le_card_nsmul
      (((addPair L.toNat (addPair L.toNat [] 2 1) 3 1).drop 0).map (pairWeight L.toNat))
      (4 ^ (L.toNat - 1)) hb
    rw [smul_eq_mul] at hsum
    have hlen : (((addPair L.toNat (addPair L.toNat [] 2 1) 3 1).drop 0).map
        (pairWeight L.toNat)).length ≤ 2 := by
      rw [List.length_map, List.drop_zero, addPair, addPair]
      split_ifs <;> simp
    have hpow : (4 : ℕ) ^ (L.toNat + 1) = 4 ^ (L.toNat - 1) * 16 := by
      have he : L.toNat + 1 = (L.toNat - 1) + 2 := by omega
      rw [he, pow_add]
      norm_num
    have h4 : 0 < (4 : ℕ) ^ (L.toNat - 1) := pow_pos (by omega) _
    have hmul := Nat.mul_le_mul_right (4 ^ (L.toNat - 1)) hlen
    rw [potential]
    omega
  obtain ⟨psF, hrun, hinvF⟩ := coprimeRun_inv_some L.toNat hW (coprimeFuel L.toNat)
    (addPair L.toNat (addPair L.toNat [] 2 1) 3 1) 0 hinv0 hpot0
  obtain ⟨hlenF, hnodupF, hokF, hmemF⟩ := hinvF
  have hclosedF : ∀ p ∈ psF, ∀ c ∈ childrenL L.toNat p, c ∈ psF := by
    intro p hp c hc
    apply (hmemF c).mpr
    right
    refine ⟨p, ?_, hc⟩
    rw [List.take_length]
    exact hp
  have hpsF_iff : ∀ q, q ∈ psF ↔ PairOK L.toNat q := by
    intro q
    constructor
    · intro hq
      exact (hokF q hq).1
    · intro hq
      have hreach : CoprimeReach L.toNat (q.1, q.2) :=
        pairok_reach L.toNat hW q.1 q.2 (by rwa [Prod.mk.eta])
      rw [Prod.mk.eta] at hreach
      exact reach_mem L.toNat psF
        (fun hs => (hmemF (2, 1)).mpr (Or.inl ⟨Or.inl rfl, hs⟩))
        (fun hs => (hmemF (3, 1)).mpr (Or.inl ⟨Or.inr rfl, hs⟩))
        hclosedF q hreach
  have hout : coprime_pairs L = some (addPair L.toNat (addPair L.toNat psF 1 0) 1 1) := by
    rw [coprime_pairs, if_neg (by omega), if_neg ?_]
    · rw [hrun]
    · rw [U64_eq]
      push_cast
      omega
  have houtlist : addPair L.toNat (addPair L.toNat psF 1 0) 1 1 =
      (psF ++ [(1, 0)]) ++ [(1, 1)] := by
    rw [addPair, if_pos hLn1, addPair, if_pos hLn1]
  have h10 : ((1 : ℕ), (0 : ℕ)) ∉ psF := by
    intro h
    have := (hokF _ h).1
    simp only [PairOK] at this
    omega
  have h11 : ((1 : ℕ), (1 : ℕ)) ∉ psF := by
    intro h
    have := (hokF _ h).1
    simp only [PairOK] at this
    omega
  refine ⟨(psF ++ [(1, 0)]) ++ [(1, 1)], by rw [hout, houtlist], ?_, ?_⟩
  · refine List.nodup_append.mpr ⟨List.nodup_append.mpr ⟨hnodupF, by simp, ?_⟩, by simp, ?_⟩
    · intro a ha hb
      rw [List.mem_singleton] at hb
      subst hb
      exact h10 ha
    · intro a ha hb
      rw [List.mem_singleton] at hb
      subst hb
      rcases List.mem_append.mp ha with h | h
      · exact h11 h
      · exact absurd (List.mem_singleton.mp h) (by decide)
  · intro x y
    have hx : ((x, y) ∈ (psF ++ [(1, 0)]) ++ [(1, 1)]) ↔
        ((x, y) ∈ psF ∨ (x, y) = ((1 : ℕ), (0 : ℕ)) ∨ (x, y) = ((1 : ℕ), (1 : ℕ))) := by
      simp [List.mem_append, or_assoc]
    rw [hx, hpsF_iff]
    constructor
    · rintro (hok' | heq | heq)
      · simp only [PairOK] at hok'
        obtain ⟨hh1, hh2, hh3, hgg⟩ := hok'
        exact ⟨by omega, by omega, hgg⟩
      · rw [Prod.mk.injEq] at heq
        obtain ⟨rfl, rfl⟩ := heq
        exact ⟨by omega, by omega, by norm_num⟩
      · rw [Prod.mk.injEq] at heq
        obtain ⟨rfl, rfl⟩ := heq
        exact ⟨by omega, by omega, by norm_num⟩
    · rintro ⟨hyx, hxL, hgg⟩
      have hxLn : x ≤ L.toNat := by omega
      by_cases hy0 : y = 0
      · subst hy0
        rw [Nat.gcd_zero_right] at hgg
        subst hgg
        exact Or.inr (Or.inl rfl)
      · by_cases hyx' : y = x
        · subst hyx'
          rw [Nat.gcd_self] at hgg
          subst hgg
          exact Or.inr (Or.inr rfl)
        · exact Or.inl ⟨by omega, by omega, hxLn, hgg⟩

/-- C2 (amended): for limits in the wrap-around-free range of the
`uint64_t` child arithmetic (`3 L < 2^64`), `coprime_pairs(L)` returns a
duplicate-free sequence containing exactly the pairs `(x, y)` with
`0 ≤ y ≤ x ≤ L` and `gcd(x, y) = 1`; for `L ≤ 0` it returns the empty
sequence. -/
theorem coprime_pairs_characterization (L : ℤ) :
    (L ≤ 0 → coprime_pairs L = some []) ∧
    (0 < L → 3 * L < 2 ^ 64 →
      ∃ ps, coprime_pairs L = some ps ∧ ps.Nodup ∧
        (∀ x y : ℕ, ((x, y) ∈ ps ↔ y ≤ x ∧ (x : ℤ) ≤ L ∧ Nat.gcd x y = 1))) := by
  constructor
  · intro h
    rw [coprime_pairs, if_pos h]
  · intro h0 hW3
    exact coprime_pairs_some_char L h0 hW3

/-- C2 witness: the theorem applied at `L = -5` and `L = 3`. -/
theorem coprime_pairs_characterization_witness :
    coprime_pairs (-5) = some [] ∧
    (∃ ps, coprime_pairs 3 = some ps ∧ ps.Nodup ∧
      (∀ x y : ℕ, ((x, y) ∈ ps ↔ y ≤ x ∧ (x : ℤ) ≤ 3 ∧ Nat.gcd x y = 1))) :=
  ⟨(coprime_pairs_characterization (-5)).1 (by decide),
   (coprime_pairs_characterization 3).2 (by decide) (by norm_num)⟩

/-- C10 (amended): for every limit in the wrap-around-free range of the
`uint64_t` child arithmetic (`3 L < 2^64`), the work-list loop of
`coprime_pairs(L)` terminates — the read cursor exhausts the growing list
within the fuel bound, so a value is returned. -/
theorem coprime_pairs_terminates (L : ℤ) (hW3 : 3 * L < 2 ^ 64) :
    (coprime_pairs L).isSome = true := by
  by_cases h0 : L ≤ 0
  · rw [coprime_pairs, if_pos h0]
    rfl
  · obtain ⟨ps, hps, _⟩ := coprime_pairs_some_char L (by omega) hW3
    rw [hps]
    rfl

/-- C10 witness: the theorem applied at `L = 5`. -/
theorem coprime_pairs_terminates_witness : (coprime_pairs 5).isSome = true :=
  coprime_pairs_terminates 5 (by norm_num)

/-! ### Divergence of coprime_pairs under uint64 wrap-around -/

theorem coprimeRun_closed_mem (L : ℕ) :
    ∀ (fuel : ℕ) (ps : List (ℕ × ℕ)) (v : ℕ) (psF : List (ℕ × ℕ)),
      coprimeRun L fuel ps v = some psF →
      (∀ p ∈ ps.take v, ∀ c ∈ childrenL L p, c ∈ ps) →
      (∀ q ∈ ps, q ∈ psF) ∧ (∀ p ∈ psF, ∀ c ∈ childrenL L p, c ∈ psF) := by
  intro fuel
  induction fuel with
  | zero =>
    intro ps v psF h hcl
    cases hv : ps[v]? with
    | none =>
      rw [coprimeRun, hv] at h
      have he := Option.some.inj h
      subst he
      have hlen : ps.length ≤ v := List.getElem?_eq_none_iff.mp hv
      have htake : ps.take v = ps := List.take_of_length_le hlen
      rw [htake] at hcl
      exact ⟨fun q hq => hq, hcl⟩
    | some p =>
      rw [coprimeRun, hv] at h
      exact Option.noConfusion h
  | succ fuel ih =>
    intro ps v psF h hcl
    cases hv : ps[v]? with
    | none =>
      rw [coprimeRun, hv] at h
      have he := Option.some.inj h
      subst he
      have hlen : ps.length ≤ v := List.getElem?_eq_none_iff.mp hv
      have htake : ps.take v = ps := List.take_of_length_le hlen
      rw [htake] at hcl
      exact ⟨fun q hq => hq, hcl⟩
    | some p =>
      rw [coprimeRun, hv] at h
      have h2 : coprimeRun L fuel (stepChildren L ps p) (v + 1) = some psF := h
      rw [stepChildren_eq] at h2
      obtain ⟨hvlt, hget⟩ := List.getElem?_eq_some_iff.mp hv
      have htake : (ps ++ childrenL L p).take (v + 1) = ps.take v ++ [p] := by
        rw [List.take_append_of_le_length (by omega), List.take_succ, hv]
        rfl
      have hcl2 : ∀ r ∈ (ps ++ childrenL L p).take (v + 1),
          ∀ c ∈ childrenL L r, c ∈ ps ++ childrenL L p := by
        intro r hr c hc
        rw [htake] at hr
        rcases List.mem_append.mp hr with h' | h'
        · exact List.mem_append.mpr (Or.inl (hcl r h' c hc))
        · have hrp : r = p := List.mem_singleton.mp h'
          subst hrp
          exact List.mem_append.mpr (Or.inr hc)
      obtain ⟨hsub, hclosed⟩ := ih (ps ++ childrenL L p) (v + 1) psF h2 hcl2
      exact ⟨fun q hq => hsub q (List.mem_append.mpr (Or.inl hq)), hclosed⟩

theorem coprimeRun_unprocessed_ne_some (L : ℕ) (q : ℕ × ℕ)
    (hself : q ∈ childrenL L q) :
    ∀ (fuel : ℕ) (ps : List (ℕ × ℕ)) (v : ℕ),
      q ∈ ps.drop v → ∀ psF, coprimeRun L fuel ps v ≠ some psF := by
  intro fuel
  induction fuel with
  | zero =>
    intro ps v hq psF h
    cases hv : ps[v]? with
    | none =>
      have hlen : ps.length ≤ v := List.getElem?_eq_none_iff.mp hv
      rw [List.drop_eq_nil_of_le hlen] at hq
      exact List.not_mem_nil q hq
    | some p =>
      rw [coprimeRun, hv] at h
      exact Option.noConfusion h
  | succ fuel ih =>
    intro ps v hq psF h
    cases hv : ps[v]? with
    | none =>
      have hlen : ps.length ≤ v := List.getElem?_eq_none_iff.mp hv
      rw [List.drop_eq_nil_of_le hlen] at hq
      exact List.not_mem_nil q hq
    | some p =>
      rw [coprimeRun, hv] at h
      have h2 : coprimeRun L fuel (stepChildren L ps p) (v + 1) = some psF := h
      rw [stepChildren_eq] at h2
      obtain ⟨hvlt, hget⟩ := List.getElem?_eq_some_iff.mp hv
      have hdrop : ps.drop v = p :: ps.drop (v + 1) := by
        rw [List.drop_eq_getElem_cons hvlt, hget]
      have hdrop2 : (ps ++ childrenL L p).drop (v + 1) =
          ps.drop (v + 1) ++ childrenL L p :=
        List.drop_append_of_le_length (by omega)
      apply ih (ps ++ childrenL L p) (v + 1) ?_ psF h2
      rw [hdrop2]
      rw [hdrop] at hq
      rcases List.mem_cons.mp hq with rfl | hq'
      · exact List.mem_append.mpr (Or.inr hself)
      · exact List.mem_append.mpr (Or.inl hq')

theorem coprimeRun_self_not_mem (L : ℕ) (q : ℕ × ℕ)
    (hself : q ∈ childrenL L q) :
    ∀ (fuel : ℕ) (ps : List (ℕ × ℕ)) (v : ℕ) (psF : List (ℕ × ℕ)),
      coprimeRun L fuel ps v = some psF →
      q ∉ psF ∨ q ∈ ps.take v := by
  intro fuel
  induction fuel with
  | zero =>
    intro ps v psF h
    cases hv : ps[v]? with
    | none =>
      rw [coprimeRun, hv] at h
      have he := Option.some.inj h
      subst he
      have hlen : ps.length ≤ v := List.getElem?_eq_none_iff.mp hv
      by_cases hq : q ∈ ps
      · right
        rw [List.take_of_length_le hlen]
        exact hq
      · left
        exact hq
    | some p =>
      rw [coprimeRun, hv] at h
      exact Option.noConfusion h
  | succ fuel ih =>
    intro ps v psF h
    cases hv : ps[v]? with
    | none =>
      rw [coprimeRun, hv] at h
      have he := Option.some.inj h
      subst he
      have hlen : ps.length ≤ v := List.getElem?_eq_none_iff.mp hv
      by_cases hq : q ∈ ps
      · right
        rw [List.take_of_length_le hlen]
        exact hq
      · left
        exact hq
    | some p =>
      rw [coprimeRun, hv] at h
      have h2 : coprimeRun L fuel (stepChildren L ps p) (v + 1) = some psF := h
      rw [stepChildren_eq] at h2
      obtain ⟨hvlt, hget⟩ := List.getElem?_eq_some_iff.mp hv
      have htake : (ps ++ childrenL L p).take (v + 1) = ps.take v ++ [p] := by
        rw [List.take_append_of_le_length (by omega), List.take_succ, hv]
        rfl
      rcases ih (ps ++ childrenL L p) (v + 1) psF h2 with hleft | hright
      · exact Or.inl hleft
      · rw [htake] at hright
        rcases List.mem_append.mp hright with h' | h'
        · exact Or.inr h'
        · have hqp : q = p := List.mem_singleton.mp h'
          subst hqp
          exfalso
          apply coprimeRun_unprocessed_ne_some L q hself fuel
            (ps ++ childrenL L q) (v + 1) ?_ psF h2
          rw [List.drop_append_of_le_length (by omega)]
          exact List.mem_append.mpr (Or.inr hself)

theorem reach_chain_Lstar :
    ∀ k : ℕ, 3 + 4 * k ≤ 9223372036854775807 →
      CoprimeReach 9223372036854775807 (3 + 4 * k, 2) := by
  intro k
  induction k with
  | zero =>
    intro _
    have h21 : CoprimeReach 9223372036854775807 (2, 1) :=
      CoprimeReach.seed2 (by norm_num)
    have hA : childA 2 1 = 3 := by decide
    have hstep := CoprimeReach.stepA 2 1 h21 (by rw [hA]; norm_num)
    rw [hA] at hstep
    simpa using hstep
  | succ k ih =>
    intro hk
    have hprev := ih (by omega)
    have hC : childC (3 + 4 * k) 2 = 3 + 4 * (k + 1) := by
      rw [childC_eval (3 + 4 * k) 2 (by rw [U64_eq]; omega)]
      omega
    have hstep := CoprimeReach.stepC (3 + 4 * k) 2 hprev (by rw [hC]; omega)
    rwa [hC] at hstep

theorem reach_Lstar_zero :
    CoprimeReach 9223372036854775807 (9223372036854775807, 0) := by
  have h1 : CoprimeReach 9223372036854775807 (9223372036854775807, 2) := by
    have h := reach_chain_Lstar 2305843009213693951 (by norm_num)
    have he : 3 + 4 * 2305843009213693951 = 9223372036854775807 := by norm_num
    rwa [he] at h
  have h2 : CoprimeReach 9223372036854775807 (0, 9223372036854775807) := by
    have hB : childB 9223372036854775807 2 = 0 := by decide
    have hstep := CoprimeReach.stepB 9223372036854775807 2 h1 (by decide)
    rwa [hB] at hstep
  have hB2 : childB 0 9223372036854775807 = 9223372036854775807 := by decide
  have hstep := CoprimeReach.stepB 0 9223372036854775807 h2 (by decide)
  rwa [hB2] at hstep

theorem selfchild_Lstar :
    ((9223372036854775807 : ℕ), (0 : ℕ)) ∈
      childrenL 9223372036854775807 (9223372036854775807, 0) := by
  decide

theorem coprimeRun_Lstar_diverges :
    ∀ (fuel : ℕ) (psF : List (ℕ × ℕ)),
      coprimeRun 9223372036854775807 fuel
        (addPair 9223372036854775807 (addPair 9223372036854775807 [] 2 1) 3 1)
        0 ≠ some psF := by
  intro fuel psF h
  obtain ⟨hsub, hclosed⟩ :=
    coprimeRun_closed_mem 9223372036854775807 fuel _ 0 psF h
      (by simp)
  have hseed2 : ((2 : ℕ), (1 : ℕ)) ∈ psF := hsub _ (by decide)
  have hseed3 : ((3 : ℕ), (1 : ℕ)) ∈ psF := hsub _ (by decide)
  have hqmem : ((9223372036854775807 : ℕ), (0 : ℕ)) ∈ psF :=
    reach_mem 9223372036854775807 psF (fun _ => hseed2) (fun _ => hseed3)
      hclosed _ reach_Lstar_zero
  rcases coprimeRun_self_not_mem 9223372036854775807 _ selfchild_Lstar fuel
      _ 0 psF h with hnot | htake
  · exact hnot hqmem
  · rw [List.take_zero] at htake
    exact List.not_mem_nil _ htake

theorem coprime_pairs_Lstar_none : coprime_pairs 9223372036854775807 = none := by
  rw [coprime_pairs, if_neg (by norm_num), if_neg (by rw [U64_eq]; norm_num)]
  have ht : (9223372036854775807 : ℤ).toNat = (9223372036854775807 : ℕ) := rfl
  rw [ht]
  cases hr : coprimeRun 9223372036854775807 (coprimeFuel 9223372036854775807)
      (addPair 9223372036854775807 (addPair 9223372036854775807 [] 2 1) 3 1) 0 with
  | none => rfl
  | some ps => exact absurd hr (coprimeRun_Lstar_diverges _ ps)

/-- C2 counterexample: at the concrete limit `L = 2^63 - 1` (representable
in the 64-bit instantiations), `coprime_pairs` returns no sequence at
all — the `uint64_t` child arithmetic wraps around, the pair
`(2^63 - 1, 0)` becomes its own child, and the work-list loop never
exhausts the list — so it is not the case that the returned sequence
contains exactly the coprime pairs under the limit. -/
theorem coprime_pairs_characterization_cex :
    ¬∃ ps, coprime_pairs 9223372036854775807 = some ps ∧ ps.Nodup ∧
      (∀ x y : ℕ, ((x, y) ∈ ps ↔
        y ≤ x ∧ (x : ℤ) ≤ 9223372036854775807 ∧ Nat.gcd x y = 1)) := by
  rintro ⟨ps, hps, _⟩
  rw [coprime_pairs_Lstar_none] at hps
  exact Option.noConfusion hps

/-- C10 counterexample: at the concrete limit `L = 2^63 - 1` the
work-list loop of `coprime_pairs` does not terminate (no amount of fuel
exhausts the growing list), so `coprime_pairs` is not total on all
integer limits. -/
theorem coprime_pairs_terminates_cex :
    (coprime_pairs 9223372036854775807).isSome = false := by
  rw [coprime_pairs_Lstar_none]
  rfl
